import Mathlib

/-!
# Verification of the `dataref` token codec and dereferencing engine

A shallow embedding, in Lean 4, of the `dataref` library (v2 data-URL token
codec plus recursive tree-dereferencing engine, and the legacy v1 reference
predicates).  JavaScript strings are modelled as lists of Unicode scalar
values (`List Char`), byte buffers as lists of naturals below 256, and the
JavaScript builtins the source leans on (`encodeURIComponent`,
`decodeURIComponent`, `btoa`, `atob`, `TextEncoder`, `TextDecoder`,
`JSON.stringify`, `JSON.parse`) are given executable definitions following
the ECMAScript / WHATWG algorithms.  Asynchrony is made explicit: network
fetch is an oracle parameter, and `Promise.all` takes an explicit settle
order so that scheduling-dependent behaviour can be stated and proved.
-/

set_option maxHeartbeats 1000000
set_option maxRecDepth 8192

namespace Dataref

/-- JavaScript strings, modelled as sequences of Unicode scalar values. -/
abbrev Str := List Char

/-- Shorthand to write string-list constants from Lean string literals. -/
def str (s : String) : Str := s.data

/-- Lower-case hexadecimal digit for a value below 16. -/
def hexDigit (n : Nat) : Char :=
  (str "0123456789abcdef").getD n '0'

/-- Upper-case hexadecimal digit for a value below 16
(`encodeURIComponent` produces upper-case escapes). -/
def hexDigitUpper (n : Nat) : Char :=
  (str "0123456789ABCDEF").getD n '0'

/-- Numeric value of a hexadecimal digit character (either case). -/
def hexVal (c : Char) : Option Nat :=
  if '0' ≤ c ∧ c ≤ '9' then some (c.toNat - '0'.toNat)
  else if 'a' ≤ c ∧ c ≤ 'f' then some (c.toNat - 'a'.toNat + 10)
  else if 'A' ≤ c ∧ c ≤ 'F' then some (c.toNat - 'A'.toNat + 10)
  else none

theorem hexVal_hexDigitUpper {n : Nat} (h : n < 16) :
    hexVal (hexDigitUpper n) = some n := by
  interval_cases n <;> rfl

theorem hexVal_hexDigit {n : Nat} (h : n < 16) :
    hexVal (hexDigit n) = some n := by
  interval_cases n <;> rfl

/-! ## UTF-8 (`TextEncoder` / `TextDecoder`)

`TextEncoder.encode` serialises a string to UTF-8 bytes; `TextDecoder` (in
its default, non-fatal mode) parses UTF-8 bytes back, emitting U+FFFD for
invalid sequences.  Lean's `Char` is exactly a Unicode scalar value, so
well-formed strings round-trip. -/

/-- UTF-8 encoding of a single Unicode scalar value. -/
def utf8EncodeChar (c : Char) : List Nat :=
  if c.toNat < 0x80 then [c.toNat]
  else if c.toNat < 0x800 then [0xC0 + c.toNat / 64, 0x80 + c.toNat % 64]
  else if c.toNat < 0x10000 then
    [0xE0 + c.toNat / 4096, 0x80 + (c.toNat / 64) % 64, 0x80 + c.toNat % 64]
  else
    [0xF0 + c.toNat / 262144, 0x80 + (c.toNat / 4096) % 64,
      0x80 + (c.toNat / 64) % 64, 0x80 + c.toNat % 64]

/-- `TextEncoder.encode`: UTF-8 bytes of a string. -/
def utf8Encode (s : Str) : List Nat :=
  s.flatMap utf8EncodeChar

/-- The replacement character U+FFFD emitted by a non-fatal `TextDecoder`
at each invalid byte. -/
def replacementChar : Char := Char.ofNat 0xFFFD

/-- Decode one UTF-8 code point: given the first byte and the following
bytes, return the decoded character and the count of extra bytes consumed
(0 for a one-byte character or an invalid lead/continuation). -/
def decodeStep (b : Nat) (rest : List Nat) : Char × Nat :=
  if b < 0x80 then (Char.ofNat b, 0)
  else if b < 0xC0 then (replacementChar, 0)
  else if b < 0xE0 then
    match rest with
    | b2 :: _ =>
      if 0x80 ≤ b2 ∧ b2 < 0xC0 ∧ 0x80 ≤ (b - 0xC0) * 64 + (b2 - 0x80) then
        (Char.ofNat ((b - 0xC0) * 64 + (b2 - 0x80)), 1)
      else (replacementChar, 0)
    | [] => (replacementChar, 0)
  else if b < 0xF0 then
    match rest with
    | b2 :: b3 :: _ =>
      if (0x80 ≤ b2 ∧ b2 < 0xC0) ∧ (0x80 ≤ b3 ∧ b3 < 0xC0) ∧
          0x800 ≤ (b - 0xE0) * 4096 + (b2 - 0x80) * 64 + (b3 - 0x80) ∧
          ((b - 0xE0) * 4096 + (b2 - 0x80) * 64 + (b3 - 0x80) < 0xD800 ∨
            0xE000 ≤ (b - 0xE0) * 4096 + (b2 - 0x80) * 64 + (b3 - 0x80)) then
        (Char.ofNat ((b - 0xE0) * 4096 + (b2 - 0x80) * 64 + (b3 - 0x80)), 2)
      else (replacementChar, 0)
    | _ => (replacementChar, 0)
  else if b < 0xF8 then
    match rest with
    | b2 :: b3 :: b4 :: _ =>
      if (0x80 ≤ b2 ∧ b2 < 0xC0) ∧ (0x80 ≤ b3 ∧ b3 < 0xC0) ∧
          (0x80 ≤ b4 ∧ b4 < 0xC0) ∧
          0x10000 ≤ (b - 0xF0) * 262144 + (b2 - 0x80) * 4096 +
            (b3 - 0x80) * 64 + (b4 - 0x80) ∧
          (b - 0xF0) * 262144 + (b2 - 0x80) * 4096 +
            (b3 - 0x80) * 64 + (b4 - 0x80) < 0x110000 then
        (Char.ofNat ((b - 0xF0) * 262144 + (b2 - 0x80) * 4096 +
          (b3 - 0x80) * 64 + (b4 - 0x80)), 3)
      else (replacementChar, 0)
    | _ => (replacementChar, 0)
  else (replacementChar, 0)

/-- Fuel-indexed worker for `textDecode`; the fuel only serves to make the
recursion structural and is always instantiated with the input length. -/
def textDecodeGo : Nat → List Nat → Str
  | _, [] => []
  | 0, _ :: _ => []
  | fuel + 1, b :: rest =>
    (decodeStep b rest).1 ::
      textDecodeGo fuel (rest.drop (decodeStep b rest).2)

/-- `TextDecoder.decode` (default non-fatal mode): strict UTF-8 decoding
with U+FFFD substituted at invalid bytes.  Overlong encodings, surrogate
code points and values beyond U+10FFFF are invalid.  (On the invalid
sequences — which none of the verified claims exercise — this model
consumes a single byte per replacement character.) -/
def textDecode (l : List Nat) : Str := textDecodeGo l.length l

theorem textDecodeGo_irrel :
    ∀ (fuel fuel' : Nat) (l : List Nat), l.length ≤ fuel →
      l.length ≤ fuel' → textDecodeGo fuel l = textDecodeGo fuel' l := by
  intro fuel
  induction fuel with
  | zero =>
    intro fuel' l h _
    have : l = [] := by
      cases l with
      | nil => rfl
      | cons b t => simp at h
    subst this
    cases fuel' <;> rfl
  | succ f ih =>
    intro fuel' l h h'
    cases l with
    | nil => cases fuel' <;> rfl
    | cons b rest =>
      cases fuel' with
      | zero => simp at h'
      | succ f' =>
        simp only [textDecodeGo]
        congr 1
        apply ih
        · have := List.length_drop ((decodeStep b rest).2) rest
          simp only [List.length_cons] at h
          omega
        · have := List.length_drop ((decodeStep b rest).2) rest
          simp only [List.length_cons] at h'
          omega

theorem textDecode_cons (b : Nat) (rest : List Nat) :
    textDecode (b :: rest) =
      (decodeStep b rest).1 ::
        textDecode (rest.drop (decodeStep b rest).2) := by
  show textDecodeGo (rest.length + 1) (b :: rest) = _
  simp only [textDecodeGo]
  congr 1
  apply textDecodeGo_irrel
  · have := List.length_drop ((decodeStep b rest).2) rest
    omega
  · rfl

theorem textDecode_one {b : Nat} (rest : List Nat) (h : b < 0x80) :
    textDecode (b :: rest) = Char.ofNat b :: textDecode rest := by
  rw [textDecode_cons]
  have : decodeStep b rest = (Char.ofNat b, 0) := by
    unfold decodeStep
    simp [h]
  rw [this]
  rfl

theorem textDecode_two {b b2 : Nat} (rest : List Nat)
    (h1 : 0xC0 ≤ b) (h2 : b < 0xE0) (h3 : 0x80 ≤ b2 ∧ b2 < 0xC0)
    (h4 : 0x80 ≤ (b - 0xC0) * 64 + (b2 - 0x80)) :
    textDecode (b :: b2 :: rest) =
      Char.ofNat ((b - 0xC0) * 64 + (b2 - 0x80)) :: textDecode rest := by
  rw [textDecode_cons]
  have : decodeStep b (b2 :: rest) =
      (Char.ofNat ((b - 0xC0) * 64 + (b2 - 0x80)), 1) := by
    unfold decodeStep
    simp [show ¬ b < 0x80 by omega, show ¬ b < 0xC0 by omega, h2, h3.1,
      h3.2, h4]
  rw [this]
  rfl

theorem textDecode_three {b b2 b3 : Nat} (rest : List Nat)
    (h1 : 0xE0 ≤ b) (h2 : b < 0xF0)
    (h3 : 0x80 ≤ b2 ∧ b2 < 0xC0) (h4 : 0x80 ≤ b3 ∧ b3 < 0xC0)
    (h5 : 0x800 ≤ (b - 0xE0) * 4096 + (b2 - 0x80) * 64 + (b3 - 0x80) ∧
      ((b - 0xE0) * 4096 + (b2 - 0x80) * 64 + (b3 - 0x80) < 0xD800 ∨
        0xE000 ≤ (b - 0xE0) * 4096 + (b2 - 0x80) * 64 + (b3 - 0x80))) :
    textDecode (b :: b2 :: b3 :: rest) =
      Char.ofNat ((b - 0xE0) * 4096 + (b2 - 0x80) * 64 + (b3 - 0x80)) ::
        textDecode rest := by
  rw [textDecode_cons]
  have : decodeStep b (b2 :: b3 :: rest) =
      (Char.ofNat ((b - 0xE0) * 4096 + (b2 - 0x80) * 64 + (b3 - 0x80)), 2) := by
    unfold decodeStep
    simp [show ¬ b < 0x80 by omega, show ¬ b < 0xC0 by omega,
      show ¬ b < 0xE0 by omega, h2, h3.1, h3.2, h4.1, h4.2, h5.1, h5.2]
  rw [this]
  rfl

theorem textDecode_four {b b2 b3 b4 : Nat} (rest : List Nat)
    (h1 : 0xF0 ≤ b) (h2 : b < 0xF8)
    (h3 : 0x80 ≤ b2 ∧ b2 < 0xC0) (h4 : 0x80 ≤ b3 ∧ b3 < 0xC0)
    (h5 : 0x80 ≤ b4 ∧ b4 < 0xC0)
    (h6 : 0x10000 ≤ (b - 0xF0) * 262144 + (b2 - 0x80) * 4096 +
        (b3 - 0x80) * 64 + (b4 - 0x80) ∧
      (b - 0xF0) * 262144 + (b2 - 0x80) * 4096 +
        (b3 - 0x80) * 64 + (b4 - 0x80) < 0x110000) :
    textDecode (b :: b2 :: b3 :: b4 :: rest) =
      Char.ofNat ((b - 0xF0) * 262144 + (b2 - 0x80) * 4096 +
        (b3 - 0x80) * 64 + (b4 - 0x80)) :: textDecode rest := by
  rw [textDecode_cons]
  have : decodeStep b (b2 :: b3 :: b4 :: rest) =
      (Char.ofNat ((b - 0xF0) * 262144 + (b2 - 0x80) * 4096 +
        (b3 - 0x80) * 64 + (b4 - 0x80)), 3) := by
    unfold decodeStep
    simp [show ¬ b < 0x80 by omega, show ¬ b < 0xC0 by omega,
      show ¬ b < 0xE0 by omega, show ¬ b < 0xF0 by omega, h2, h3.1, h3.2,
      h4.1, h4.2, h5.1, h5.2, h6.1, h6.2]
  rw [this]
  rfl

/-- The facts Lean's `Char` validity invariant gives about `c.toNat`. -/
theorem char_toNat_facts (c : Char) :
    c.toNat < 0xD800 ∨ (0xDFFF < c.toNat ∧ c.toNat < 0x110000) := by
  have h := c.valid
  unfold UInt32.isValidChar Nat.isValidChar at h
  exact h

theorem utf8EncodeChar_ne_nil (c : Char) : utf8EncodeChar c ≠ [] := by
  unfold utf8EncodeChar
  split
  · simp
  · split
    · simp
    · split <;> simp

/-- Decoding the UTF-8 bytes of one character, followed by anything,
recovers the character and continues on the remainder. -/
theorem textDecode_utf8EncodeChar (c : Char) (rest : List Nat) :
    textDecode (utf8EncodeChar c ++ rest) = c :: textDecode rest := by
  have hval := char_toNat_facts c
  by_cases hA : c.toNat < 0x80
  · rw [utf8EncodeChar, if_pos hA, List.cons_append, List.nil_append,
      textDecode_one rest hA, Char.ofNat_toNat]
  · by_cases hB : c.toNat < 0x800
    · rw [utf8EncodeChar, if_neg hA, if_pos hB, List.cons_append,
        List.cons_append, List.nil_append,
        textDecode_two rest (by omega) (by omega) (by constructor <;> omega)
          (by omega)]
      have harg : (0xC0 + c.toNat / 64 - 0xC0) * 64 +
          (0x80 + c.toNat % 64 - 0x80) = c.toNat := by omega
      rw [harg, Char.ofNat_toNat]
    · by_cases hC : c.toNat < 0x10000
      · have hsur : c.toNat < 0xD800 ∨ 0xDFFF < c.toNat := by
          rcases hval with h | h
          · exact Or.inl h
          · exact Or.inr h.1
        rw [utf8EncodeChar, if_neg hA, if_neg hB, if_pos hC,
          List.cons_append, List.cons_append, List.cons_append,
          List.nil_append,
          textDecode_three rest (by omega) (by omega)
            (by constructor <;> omega) (by constructor <;> omega)
            (by constructor
                · omega
                · rcases hsur with h | h
                  · left; omega
                  · right; omega)]
        have harg : (0xE0 + c.toNat / 4096 - 0xE0) * 4096 +
            (0x80 + c.toNat / 64 % 64 - 0x80) * 64 +
            (0x80 + c.toNat % 64 - 0x80) = c.toNat := by omega
        rw [harg, Char.ofNat_toNat]
      · have hD : c.toNat < 0x110000 := by
          rcases hval with h | h
          · omega
          · exact h.2
        rw [utf8EncodeChar, if_neg hA, if_neg hB, if_neg hC,
          List.cons_append, List.cons_append, List.cons_append,
          List.cons_append, List.nil_append,
          textDecode_four rest (by omega) (by omega)
            (by constructor <;> omega) (by constructor <;> omega)
            (by constructor <;> omega) (by constructor <;> omega)]
        have harg : (0xF0 + c.toNat / 262144 - 0xF0) * 262144 +
            (0x80 + c.toNat / 4096 % 64 - 0x80) * 4096 +
            (0x80 + c.toNat / 64 % 64 - 0x80) * 64 +
            (0x80 + c.toNat % 64 - 0x80) = c.toNat := by omega
        rw [harg, Char.ofNat_toNat]

/-- `TextDecoder.decode ∘ TextEncoder.encode` is the identity on
well-formed strings. -/
theorem textDecode_utf8Encode (s : Str) : textDecode (utf8Encode s) = s := by
  induction s with
  | nil => rfl
  | cons c cs ih =>
    simp only [utf8Encode, List.flatMap_cons]
    rw [show cs.flatMap utf8EncodeChar = utf8Encode cs from rfl,
      textDecode_utf8EncodeChar, ih]

/-- Every byte produced by the UTF-8 encoder is below 256. -/
theorem utf8EncodeChar_lt_256 (c : Char) :
    ∀ b ∈ utf8EncodeChar c, b < 256 := by
  have hval := char_toNat_facts c
  have h110 : c.toNat < 0x110000 := by rcases hval with h | h <;> omega
  intro b hb
  unfold utf8EncodeChar at hb
  split at hb
  · simp at hb; omega
  · split at hb
    · simp at hb
      rcases hb with h | h <;> omega
    · split at hb
      · simp at hb
        rcases hb with h | h | h <;> omega
      · simp at hb
        rcases hb with h | h | h | h <;> omega

/-! ## Percent escaping (`encodeURIComponent` / `decodeURIComponent`)

`encodeURIComponent` leaves the ECMAScript unreserved characters alone and
escapes every other character as the `%XX` hex escapes of its UTF-8 bytes;
`decodeURIComponent` inverts this, throwing a `URIError` on malformed
escapes (modelled as `none`). -/

/-- The characters `encodeURIComponent` never escapes. -/
def isUnreserved (c : Char) : Bool :=
  c.isAlpha ∨ c.isDigit ∨ c ∈ str "-_.!~*'()"

/-- `%XX` escape of one byte (upper-case hex, as produced by
`encodeURIComponent`). -/
def pctEncodeByte (b : Nat) : Str :=
  ['%', hexDigitUpper (b / 16), hexDigitUpper (b % 16)]

/-- `encodeURIComponent` on a single character. -/
def encodeURIComponentChar (c : Char) : Str :=
  if isUnreserved c then [c] else (utf8EncodeChar c).flatMap pctEncodeByte

/-- `encodeURIComponent`. -/
def encodeURIComponent (s : Str) : Str :=
  s.flatMap encodeURIComponentChar

/-- Read a `%XX` escape body: the two hex digits after a `%`, returning
the byte and the remaining characters. -/
def pctEscape (rest : Str) : Option (Nat × Str) :=
  match rest with
  | h1 :: h2 :: rest2 =>
    match hexVal h1, hexVal h2 with
    | some hi, some lo => some (hi * 16 + lo, rest2)
    | _, _ => none
  | _ => none

/-- Fuel-indexed worker for `pctTokenize`. -/
def pctTokenizeGo : Nat → Str → Option (List (Char ⊕ Nat))
  | _, [] => some []
  | 0, _ :: _ => none
  | fuel + 1, c :: rest =>
    if c = '%' then
      (pctEscape rest).bind fun p =>
        (pctTokenizeGo fuel p.2).bind fun t => some (Sum.inr p.1 :: t)
    else
      (pctTokenizeGo fuel rest).bind fun t => some (Sum.inl c :: t)

/-- First pass of `decodeURIComponent`: replace each `%XX` escape by its
byte, failing on malformed escapes. -/
def pctTokenize (s : Str) : Option (List (Char ⊕ Nat)) :=
  pctTokenizeGo s.length s

/-- One strict UTF-8 step over the token stream: given a byte token and
the following tokens, return the decoded character and the count of extra
byte tokens consumed, or `none` on a malformed sequence. -/
def detokStep (b : Nat) (t : List (Char ⊕ Nat)) : Option (Char × Nat) :=
  if b < 0x80 then some (Char.ofNat b, 0)
  else if b < 0xC0 then none
  else if b < 0xE0 then
    match t with
    | Sum.inr b2 :: _ =>
      if 0x80 ≤ b2 ∧ b2 < 0xC0 ∧ 0x80 ≤ (b - 0xC0) * 64 + (b2 - 0x80) then
        some (Char.ofNat ((b - 0xC0) * 64 + (b2 - 0x80)), 1)
      else none
    | _ => none
  else if b < 0xF0 then
    match t with
    | Sum.inr b2 :: Sum.inr b3 :: _ =>
      if (0x80 ≤ b2 ∧ b2 < 0xC0) ∧ (0x80 ≤ b3 ∧ b3 < 0xC0) ∧
          0x800 ≤ (b - 0xE0) * 4096 + (b2 - 0x80) * 64 + (b3 - 0x80) ∧
          ((b - 0xE0) * 4096 + (b2 - 0x80) * 64 + (b3 - 0x80) < 0xD800 ∨
            0xE000 ≤ (b - 0xE0) * 4096 + (b2 - 0x80) * 64 + (b3 - 0x80)) then
        some (Char.ofNat ((b - 0xE0) * 4096 + (b2 - 0x80) * 64 + (b3 - 0x80)), 2)
      else none
    | _ => none
  else if b < 0xF8 then
    match t with
    | Sum.inr b2 :: Sum.inr b3 :: Sum.inr b4 :: _ =>
      if (0x80 ≤ b2 ∧ b2 < 0xC0) ∧ (0x80 ≤ b3 ∧ b3 < 0xC0) ∧
          (0x80 ≤ b4 ∧ b4 < 0xC0) ∧
          0x10000 ≤ (b - 0xF0) * 262144 + (b2 - 0x80) * 4096 +
            (b3 - 0x80) * 64 + (b4 - 0x80) ∧
          (b - 0xF0) * 262144 + (b2 - 0x80) * 4096 +
            (b3 - 0x80) * 64 + (b4 - 0x80) < 0x110000 then
        some (Char.ofNat ((b - 0xF0) * 262144 + (b2 - 0x80) * 4096 +
          (b3 - 0x80) * 64 + (b4 - 0x80)), 3)
      else none
    | _ => none
  else none

/-- Fuel-indexed worker for `pctDetok`. -/
def pctDetokGo : Nat → List (Char ⊕ Nat) → Option Str
  | _, [] => some []
  | 0, _ :: _ => none
  | fuel + 1, Sum.inl c :: t => (pctDetokGo fuel t).bind fun s => some (c :: s)
  | fuel + 1, Sum.inr b :: t =>
    (detokStep b t).bind fun p =>
      (pctDetokGo fuel (t.drop p.2)).bind fun s => some (p.1 :: s)

/-- Second pass of `decodeURIComponent`: UTF-8-decode the escape bytes
(strictly — any malformed sequence is a `URIError`), passing unescaped
characters through. -/
def pctDetok (ts : List (Char ⊕ Nat)) : Option Str := pctDetokGo ts.length ts

/-- `decodeURIComponent` (`none` models a thrown `URIError`). -/
def decodeURIComponent (s : Str) : Option Str :=
  pctTokenize s >>= pctDetok

/-- The token sequence `pctTokenize` recovers from the escape of one
character. -/
def charToks (c : Char) : List (Char ⊕ Nat) :=
  if isUnreserved c then [Sum.inl c]
  else (utf8EncodeChar c).map Sum.inr

theorem obind_cons {α : Type} (X : Option (List α)) (a : α) :
    (X.bind fun s => some (a :: s)) = (a :: ·) <$> X := by
  cases X <;> rfl

theorem pctEscape_length {rest : Str} {b : Nat} {r2 : Str}
    (h : pctEscape rest = some (b, r2)) : r2.length + 2 = rest.length := by
  rcases rest with _ | ⟨h1, _ | ⟨h2, rest2⟩⟩
  · simp [pctEscape] at h
  · simp [pctEscape] at h
  · cases hv1 : hexVal h1 with
    | none => simp [pctEscape, hv1] at h
    | some hi =>
      cases hv2 : hexVal h2 with
      | none => simp [pctEscape, hv1, hv2] at h
      | some lo =>
        simp only [pctEscape, hv1, hv2, Option.some.injEq, Prod.mk.injEq] at h
        rw [← h.2]
        simp

theorem pctTokenizeGo_irrel :
    ∀ (fuel fuel' : Nat) (s : Str), s.length ≤ fuel →
      s.length ≤ fuel' → pctTokenizeGo fuel s = pctTokenizeGo fuel' s := by
  intro fuel
  induction fuel with
  | zero =>
    intro fuel' s h _
    have : s = [] := by
      cases s with
      | nil => rfl
      | cons c t => simp at h
    subst this
    cases fuel' <;> rfl
  | succ f ih =>
    intro fuel' s h h'
    cases s with
    | nil => cases fuel' <;> rfl
    | cons c rest =>
      cases fuel' with
      | zero => simp at h'
      | succ f' =>
        simp only [List.length_cons] at h h'
        simp only [pctTokenizeGo]
        by_cases hc : c = '%'
        · rw [if_pos hc, if_pos hc]
          cases he : pctEscape rest with
          | none => rfl
          | some p =>
            rcases p with ⟨b, r2⟩
            have := pctEscape_length he
            simp only [Option.some_bind]
            rw [ih f' r2 (by omega) (by omega)]
        · rw [if_neg hc, if_neg hc, ih f' rest (by omega) (by omega)]

theorem pctTokenize_cons_of_ne {c : Char} (hc : c ≠ '%') (rest : Str) :
    pctTokenize (c :: rest) = (Sum.inl c :: ·) <$> pctTokenize rest := by
  show pctTokenizeGo (rest.length + 1) (c :: rest) = _
  simp only [pctTokenizeGo, if_neg hc, obind_cons]
  rfl

theorem pctTokenize_cons_pct (rest : Str) :
    pctTokenize ('%' :: rest) =
      (pctEscape rest).bind fun p =>
        (Sum.inr p.1 :: ·) <$> pctTokenize p.2 := by
  show pctTokenizeGo (rest.length + 1) ('%' :: rest) = _
  simp only [pctTokenizeGo, if_true, eq_self_iff_true]
  cases he : pctEscape rest with
  | none => rfl
  | some p =>
    rcases p with ⟨b, r2⟩
    have hlen := pctEscape_length he
    simp only [Option.some_bind]
    rw [pctTokenizeGo_irrel rest.length r2.length r2 (by omega) (le_refl _),
      obind_cons]
    rfl

theorem pctTokenize_escape {b : Nat} (h : b < 256) (rest : Str) :
    pctTokenize (pctEncodeByte b ++ rest) =
      (Sum.inr b :: ·) <$> pctTokenize rest := by
  have h3 : b / 16 * 16 + b % 16 = b := by omega
  simp only [pctEncodeByte, List.cons_append, List.nil_append,
    pctTokenize_cons_pct, pctEscape,
    hexVal_hexDigitUpper (show b / 16 < 16 by omega),
    hexVal_hexDigitUpper (show b % 16 < 16 by omega)]
  simp [h3]

theorem isUnreserved_ne_pct {c : Char} (h : isUnreserved c = true) :
    c ≠ '%' := by
  intro hc
  subst hc
  simp [isUnreserved, str] at h

theorem pctTokenize_escapes (bs : List Nat) (hb : ∀ b ∈ bs, b < 256)
    (rest : Str) :
    pctTokenize (bs.flatMap pctEncodeByte ++ rest) =
      ((bs.map Sum.inr ++ ·)) <$> pctTokenize rest := by
  induction bs with
  | nil => cases hr : pctTokenize rest <;> simp [hr]
  | cons b bs ih =>
    simp only [List.flatMap_cons, List.map_cons, List.append_assoc]
    rw [pctTokenize_escape (hb b (by simp)),
      ih (fun x hx => hb x (by simp [hx]))]
    cases hr : pctTokenize rest <;> simp [hr]

theorem pctTokenize_char (c : Char) (rest : Str) :
    pctTokenize (encodeURIComponentChar c ++ rest) =
      (charToks c ++ ·) <$> pctTokenize rest := by
  unfold encodeURIComponentChar charToks
  by_cases h : isUnreserved c = true
  · rw [if_pos h, if_pos h, List.cons_append, List.nil_append,
      pctTokenize_cons_of_ne (isUnreserved_ne_pct h)]
    cases hr : pctTokenize rest <;> simp [hr]
  · rw [if_neg h, if_neg h]
    exact pctTokenize_escapes _ (utf8EncodeChar_lt_256 c) rest

theorem detokStep_one {b : Nat} (ts : List (Char ⊕ Nat)) (h : b < 0x80) :
    detokStep b ts = some (Char.ofNat b, 0) := by
  unfold detokStep
  simp [h]

theorem detokStep_two (b b2 : Nat) (ts : List (Char ⊕ Nat))
    (h1 : 0xC0 ≤ b) (h2 : b < 0xE0) (h3 : 0x80 ≤ b2 ∧ b2 < 0xC0)
    (h4 : 0x80 ≤ (b - 0xC0) * 64 + (b2 - 0x80)) :
    detokStep b (Sum.inr b2 :: ts) =
      some (Char.ofNat ((b - 0xC0) * 64 + (b2 - 0x80)), 1) := by
  unfold detokStep
  simp [show ¬ b < 0x80 by omega, show ¬ b < 0xC0 by omega, h2, h3.1, h3.2,
    h4]

theorem detokStep_three (b b2 b3 : Nat) (ts : List (Char ⊕ Nat))
    (h1 : 0xE0 ≤ b) (h2 : b < 0xF0)
    (h3 : 0x80 ≤ b2 ∧ b2 < 0xC0) (h4 : 0x80 ≤ b3 ∧ b3 < 0xC0)
    (h5 : 0x800 ≤ (b - 0xE0) * 4096 + (b2 - 0x80) * 64 + (b3 - 0x80) ∧
      ((b - 0xE0) * 4096 + (b2 - 0x80) * 64 + (b3 - 0x80) < 0xD800 ∨
        0xE000 ≤ (b - 0xE0) * 4096 + (b2 - 0x80) * 64 + (b3 - 0x80))) :
    detokStep b (Sum.inr b2 :: Sum.inr b3 :: ts) =
      some (Char.ofNat ((b - 0xE0) * 4096 + (b2 - 0x80) * 64 + (b3 - 0x80)),
        2) := by
  unfold detokStep
  simp [show ¬ b < 0x80 by omega, show ¬ b < 0xC0 by omega,
    show ¬ b < 0xE0 by omega, h2, h3.1, h3.2, h4.1, h4.2, h5.1, h5.2]

theorem detokStep_four (b b2 b3 b4 : Nat) (ts : List (Char ⊕ Nat))
    (h1 : 0xF0 ≤ b) (h2 : b < 0xF8)
    (h3 : 0x80 ≤ b2 ∧ b2 < 0xC0) (h4 : 0x80 ≤ b3 ∧ b3 < 0xC0)
    (h5 : 0x80 ≤ b4 ∧ b4 < 0xC0)
    (h6 : 0x10000 ≤ (b - 0xF0) * 262144 + (b2 - 0x80) * 4096 +
        (b3 - 0x80) * 64 + (b4 - 0x80) ∧
      (b - 0xF0) * 262144 + (b2 - 0x80) * 4096 +
        (b3 - 0x80) * 64 + (b4 - 0x80) < 0x110000) :
    detokStep b (Sum.inr b2 :: Sum.inr b3 :: Sum.inr b4 :: ts) =
      some (Char.ofNat ((b - 0xF0) * 262144 + (b2 - 0x80) * 4096 +
        (b3 - 0x80) * 64 + (b4 - 0x80)), 3) := by
  unfold detokStep
  simp [show ¬ b < 0x80 by omega, show ¬ b < 0xC0 by omega,
    show ¬ b < 0xE0 by omega, show ¬ b < 0xF0 by omega, h2, h3.1, h3.2,
    h4.1, h4.2, h5.1, h5.2, h6.1, h6.2]

theorem pctDetokGo_irrel :
    ∀ (fuel fuel' : Nat) (ts : List (Char ⊕ Nat)), ts.length ≤ fuel →
      ts.length ≤ fuel' → pctDetokGo fuel ts = pctDetokGo fuel' ts := by
  intro fuel
  induction fuel with
  | zero =>
    intro fuel' ts h _
    have : ts = [] := by
      cases ts with
      | nil => rfl
      | cons x t => simp at h
    subst this
    cases fuel' <;> rfl
  | succ f ih =>
    intro fuel' ts h h'
    cases ts with
    | nil => cases fuel' <;> rfl
    | cons x t =>
      cases fuel' with
      | zero => simp at h'
      | succ f' =>
        simp only [List.length_cons] at h h'
        cases x with
        | inl c =>
          simp only [pctDetokGo]
          rw [ih f' t (by omega) (by omega)]
        | inr b =>
          simp only [pctDetokGo]
          cases hs : detokStep b t with
          | none => rfl
          | some p =>
            rcases p with ⟨ch, k⟩
            have hd := List.length_drop k t
            simp only [Option.some_bind]
            rw [ih f' (t.drop k) (by omega) (by omega)]

theorem pctDetok_cons_inl (c : Char) (ts : List (Char ⊕ Nat)) :
    pctDetok (Sum.inl c :: ts) = (c :: ·) <$> pctDetok ts := by
  show pctDetokGo (ts.length + 1) (Sum.inl c :: ts) = _
  simp only [pctDetokGo, obind_cons]
  rfl

theorem pctDetok_cons_inr (b : Nat) (ts : List (Char ⊕ Nat)) :
    pctDetok (Sum.inr b :: ts) =
      (detokStep b ts).bind fun p => (p.1 :: ·) <$> pctDetok (ts.drop p.2) := by
  show pctDetokGo (ts.length + 1) (Sum.inr b :: ts) = _
  simp only [pctDetokGo]
  cases hs : detokStep b ts with
  | none => rfl
  | some p =>
    rcases p with ⟨ch, k⟩
    have hd := List.length_drop k ts
    simp only [Option.some_bind]
    rw [pctDetokGo_irrel ts.length (ts.drop k).length (ts.drop k) (by omega)
      (le_refl _), obind_cons]
    rfl

theorem pctDetok_char (c : Char) (ts : List (Char ⊕ Nat)) :
    pctDetok (charToks c ++ ts) = (c :: ·) <$> pctDetok ts := by
  unfold charToks
  by_cases h : isUnreserved c = true
  · rw [if_pos h, List.cons_append, List.nil_append, pctDetok_cons_inl]
  · rw [if_neg h]
    have hval := char_toNat_facts c
    by_cases hA : c.toNat < 0x80
    · rw [utf8EncodeChar, if_pos hA]
      simp only [List.map_cons, List.map_nil, List.cons_append,
        List.nil_append, pctDetok_cons_inr, detokStep_one ts hA,
        Option.some_bind, List.drop_zero, Char.ofNat_toNat]
    · by_cases hB : c.toNat < 0x800
      · rw [utf8EncodeChar, if_neg hA, if_pos hB]
        simp only [List.map_cons, List.map_nil, List.cons_append,
          List.nil_append, pctDetok_cons_inr]
        have hs := detokStep_two (0xC0 + c.toNat / 64)
          (0x80 + c.toNat % 64) ts (by omega) (by omega)
          ⟨by omega, by omega⟩ (by omega)
        have harg : (0xC0 + c.toNat / 64 - 0xC0) * 64 +
            (0x80 + c.toNat % 64 - 0x80) = c.toNat := by omega
        rw [harg] at hs
        simp only [hs, Option.some_bind, Char.ofNat_toNat,
          show List.drop 1 (Sum.inr (0x80 + c.toNat % 64) :: ts) = ts
            from rfl]
      · by_cases hC : c.toNat < 0x10000
        · have hsur : c.toNat < 0xD800 ∨ 0xDFFF < c.toNat := by
            rcases hval with hh | hh
            · exact Or.inl hh
            · exact Or.inr hh.1
          rw [utf8EncodeChar, if_neg hA, if_neg hB, if_pos hC]
          simp only [List.map_cons, List.map_nil, List.cons_append,
            List.nil_append, pctDetok_cons_inr]
          have hs := detokStep_three (0xE0 + c.toNat / 4096)
            (0x80 + c.toNat / 64 % 64) (0x80 + c.toNat % 64) ts
            (by omega) (by omega) ⟨by omega, by omega⟩ ⟨by omega, by omega⟩
            (by
              constructor
              · omega
              · rcases hsur with hh | hh
                · left; omega
                · right; omega)
          have harg : (0xE0 + c.toNat / 4096 - 0xE0) * 4096 +
              (0x80 + c.toNat / 64 % 64 - 0x80) * 64 +
              (0x80 + c.toNat % 64 - 0x80) = c.toNat := by omega
          rw [harg] at hs
          simp only [hs, Option.some_bind, Char.ofNat_toNat,
            show List.drop 2 (Sum.inr (0x80 + c.toNat / 64 % 64) ::
              Sum.inr (0x80 + c.toNat % 64) :: ts) = ts from rfl]
        · have hD : c.toNat < 0x110000 := by
            rcases hval with hh | hh
            · omega
            · exact hh.2
          rw [utf8EncodeChar, if_neg hA, if_neg hB, if_neg hC]
          simp only [List.map_cons, List.map_nil, List.cons_append,
            List.nil_append, pctDetok_cons_inr]
          have hs := detokStep_four (0xF0 + c.toNat / 262144)
            (0x80 + c.toNat / 4096 % 64)
            (0x80 + c.toNat / 64 % 64) (0x80 + c.toNat % 64) ts
            (by omega) (by omega) ⟨by omega, by omega⟩ ⟨by omega, by omega⟩
            ⟨by omega, by omega⟩ ⟨by omega, by omega⟩
          have harg : (0xF0 + c.toNat / 262144 - 0xF0) * 262144 +
              (0x80 + c.toNat / 4096 % 64 - 0x80) * 4096 +
              (0x80 + c.toNat / 64 % 64 - 0x80) * 64 +
              (0x80 + c.toNat % 64 - 0x80) = c.toNat := by omega
          rw [harg] at hs
          simp only [hs, Option.some_bind, Char.ofNat_toNat,
            show List.drop 3 (Sum.inr (0x80 + c.toNat / 4096 % 64) ::
              Sum.inr (0x80 + c.toNat / 64 % 64) ::
              Sum.inr (0x80 + c.toNat % 64) :: ts) = ts from rfl]

/-- `decodeURIComponent ∘ encodeURIComponent` is the identity. -/
theorem decodeURIComponent_encodeURIComponent (s : Str) :
    decodeURIComponent (encodeURIComponent s) = some s := by
  suffices h : pctTokenize (encodeURIComponent s) = some (s.flatMap charToks) by
    have h2 : ∀ u : Str, pctDetok (u.flatMap charToks) = some u := by
      intro u
      induction u with
      | nil => rfl
      | cons c cs ih =>
        simp only [List.flatMap_cons]
        rw [pctDetok_char, ih]
        rfl
    simp [decodeURIComponent, h, h2]
  induction s with
  | nil => rfl
  | cons c cs ih =>
    simp only [encodeURIComponent, List.flatMap_cons]
    rw [show cs.flatMap encodeURIComponentChar = encodeURIComponent cs from rfl,
      pctTokenize_char, ih]
    rfl

/-! ## Base64 (`btoa` / `atob`)

`bufferToDataUrl` produces its payload with
`btoa(String.fromCharCode(...bytes))`; decoding uses `atob`.  The model
works directly on byte lists (every byte of a `Uint8Array` is below 256).
`atob` is modelled as strict RFC 4648 base64-with-padding; the forgiving
whitespace-stripping of the WHATWG algorithm is not exercised by any
examined claim (`btoa` output never contains whitespace). -/

/-- The base64 alphabet. -/
def base64Alphabet : Str :=
  str "ABCDEFGHIJKLMNOPQRSTUVWXYZabcdefghijklmnopqrstuvwxyz0123456789+/"

/-- Base64 digit for a sextet. -/
def b64Char (n : Nat) : Char := base64Alphabet.getD n 'A'

/-- Index of a character in the base64 alphabet. -/
def b64Val (c : Char) : Option Nat :=
  base64Alphabet.indexOf? c

/-- `btoa` on a byte list: 3-byte groups to 4 base64 digits, with `=`
padding for a 1- or 2-byte tail. -/
def btoa : List Nat → Str
  | [] => []
  | [a] => [b64Char (a / 4), b64Char (a % 4 * 16), '=', '=']
  | [a, b] =>
    [b64Char (a / 4), b64Char (a % 4 * 16 + b / 16), b64Char (b % 16 * 4),
      '=']
  | a :: b :: c :: rest =>
    b64Char (a / 4) :: b64Char (a % 4 * 16 + b / 16) ::
      b64Char (b % 16 * 4 + c / 64) :: b64Char (c % 64) :: btoa rest

/-- Decode the final base64 quad, honouring `=` padding. -/
def atobQuad (a b c d : Char) : Option (List Nat) :=
  if c = '=' ∧ d = '=' then
    (b64Val a).bind fun v1 => (b64Val b).bind fun v2 =>
      some [v1 * 4 + v2 / 16]
  else if d = '=' then
    (b64Val a).bind fun v1 => (b64Val b).bind fun v2 =>
      (b64Val c).bind fun v3 =>
        some [v1 * 4 + v2 / 16, v2 % 16 * 16 + v3 / 4]
  else
    (b64Val a).bind fun v1 => (b64Val b).bind fun v2 =>
      (b64Val c).bind fun v3 => (b64Val d).bind fun v4 =>
        some [v1 * 4 + v2 / 16, v2 % 16 * 16 + v3 / 4, v3 % 4 * 64 + v4]

/-- `atob` (strict base64 with padding): 4 characters at a time; padding
is only legal in the final quad; any character outside the alphabet, or a
length not a multiple of 4, throws (`none`). -/
def atob : Str → Option (List Nat)
  | [] => some []
  | a :: b :: c :: d :: rest =>
    if rest = [] then atobQuad a b c d
    else
      (b64Val a).bind fun v1 => (b64Val b).bind fun v2 =>
        (b64Val c).bind fun v3 => (b64Val d).bind fun v4 =>
          (atob rest).bind fun t =>
            some ((v1 * 4 + v2 / 16) :: (v2 % 16 * 16 + v3 / 4) ::
              (v3 % 4 * 64 + v4) :: t)
  | _ => none

theorem b64Val_b64Char {n : Nat} (h : n < 64) :
    b64Val (b64Char n) = some n := by
  interval_cases n <;> decide

theorem b64Char_ne_eq {n : Nat} (h : n < 64) : b64Char n ≠ '=' := by
  interval_cases n <;> decide

theorem b64Char_ne_comma (n : Nat) : b64Char n ≠ ',' := by
  by_cases h : n < 64
  · interval_cases n <;> decide
  · unfold b64Char base64Alphabet
    rw [List.getD_eq_default]
    · decide
    · simp only [str]
      rw [show ("ABCDEFGHIJKLMNOPQRSTUVWXYZabcdefghijklmnopqrstuvwxyz0123456789+/").data.length = 64 from rfl]
      omega

/-- No comma ever appears in `btoa` output (so the first comma of a data
URL is always the header/payload separator). -/
theorem btoa_no_comma (bs : List Nat) : ',' ∉ btoa bs := by
  induction bs using btoa.induct with
  | case1 => simp [btoa]
  | case2 a =>
    simp only [btoa, List.mem_cons, List.not_mem_nil, or_false]
    intro hmem
    rcases hmem with hh | hh | hh | hh
    · exact b64Char_ne_comma _ hh.symm
    · exact b64Char_ne_comma _ hh.symm
    · exact absurd hh.symm (by decide)
    · exact absurd hh.symm (by decide)
  | case3 a b =>
    simp only [btoa, List.mem_cons, List.not_mem_nil, or_false]
    intro hmem
    rcases hmem with hh | hh | hh | hh
    · exact b64Char_ne_comma _ hh.symm
    · exact b64Char_ne_comma _ hh.symm
    · exact b64Char_ne_comma _ hh.symm
    · exact absurd hh.symm (by decide)
  | case4 a b c rest ih =>
    simp only [btoa, List.mem_cons]
    intro hmem
    rcases hmem with hh | hh | hh | hh | hh
    · exact b64Char_ne_comma _ hh.symm
    · exact b64Char_ne_comma _ hh.symm
    · exact b64Char_ne_comma _ hh.symm
    · exact b64Char_ne_comma _ hh.symm
    · exact ih hh

theorem btoa_ne_nil {bs : List Nat} (h : bs ≠ []) : btoa bs ≠ [] := by
  rcases bs with _ | ⟨a, _ | ⟨b, _ | ⟨c, t⟩⟩⟩ <;> simp [btoa] at h ⊢

/-- `atob ∘ btoa` is the identity on byte lists. -/
theorem atob_btoa (bs : List Nat) (hb : ∀ b ∈ bs, b < 256) :
    atob (btoa bs) = some bs := by
  induction bs using btoa.induct with
  | case1 => rfl
  | case2 a =>
    have ha := hb a (by simp)
    simp only [btoa, atob, if_pos rfl, atobQuad,
      b64Val_b64Char (show a / 4 < 64 by omega),
      b64Val_b64Char (show a % 4 * 16 < 64 by omega), Option.some_bind]
    have e1 : a / 4 * 4 + a % 4 * 16 / 16 = a := by omega
    rw [e1]
    simp
  | case3 a b =>
    have ha := hb a (by simp)
    have hbb := hb b (by simp)
    have hne : ¬ (b64Char (b % 16 * 4) = '=' ∧ '=' = '=') := by
      intro hcon
      exact b64Char_ne_eq (show b % 16 * 4 < 64 by omega) hcon.1
    simp only [btoa, atob, if_pos rfl, atobQuad,
      b64Val_b64Char (show a / 4 < 64 by omega),
      b64Val_b64Char (show a % 4 * 16 + b / 16 < 64 by omega),
      b64Val_b64Char (show b % 16 * 4 < 64 by omega), Option.some_bind]
    have e1 : a / 4 * 4 + (a % 4 * 16 + b / 16) / 16 = a := by omega
    have e2 : (a % 4 * 16 + b / 16) % 16 * 16 + b % 16 * 4 / 4 = b := by
      omega
    rw [e1, e2]
    simp [b64Char_ne_eq (show b % 16 * 4 < 64 by omega)]
  | case4 a b c rest ih =>
    have ha := hb a (by simp)
    have hbb := hb b (by simp)
    have hc := hb c (by simp)
    have hko : atob (btoa rest) = some rest :=
      ih (fun x hx => hb x (by simp [hx]))
    have e1 : a / 4 * 4 + (a % 4 * 16 + b / 16) / 16 = a := by omega
    have e2 : (a % 4 * 16 + b / 16) % 16 * 16 +
        (b % 16 * 4 + c / 64) / 4 = b := by omega
    have e3 : (b % 16 * 4 + c / 64) % 4 * 64 + c % 64 = c := by omega
    cases hrest : rest with
    | nil =>
      subst hrest
      have hne1 : ¬ (b64Char (b % 16 * 4 + c / 64) = '=' ∧
          b64Char (c % 64) = '=') := by
        intro hcon
        exact b64Char_ne_eq (show b % 16 * 4 + c / 64 < 64 by omega) hcon.1
      have hne2 : b64Char (c % 64) ≠ '=' :=
        b64Char_ne_eq (show c % 64 < 64 by omega)
      simp only [btoa, atob, if_pos rfl, atobQuad,
        b64Val_b64Char (show a / 4 < 64 by omega),
        b64Val_b64Char (show a % 4 * 16 + b / 16 < 64 by omega),
        b64Val_b64Char (show b % 16 * 4 + c / 64 < 64 by omega),
        b64Val_b64Char (show c % 64 < 64 by omega), Option.some_bind]
      rw [e1, e2, e3]
      simp [b64Char_ne_eq (show b % 16 * 4 + c / 64 < 64 by omega),
        b64Char_ne_eq (show c % 64 < 64 by omega)]
    | cons x xs =>
      subst hrest
      have hne : btoa (x :: xs) ≠ [] := btoa_ne_nil (by simp)
      simp only [btoa, atob, if_neg hne,
        b64Val_b64Char (show a / 4 < 64 by omega),
        b64Val_b64Char (show a % 4 * 16 + b / 16 < 64 by omega),
        b64Val_b64Char (show b % 16 * 4 + c / 64 < 64 by omega),
        b64Val_b64Char (show c % 64 < 64 by omega), Option.some_bind, hko]
      rw [e1, e2, e3]

/-! ## JSON (`JSON.stringify` / `JSON.parse`)

JSON-compatible JavaScript values.  Numbers are modelled as exact
integers: every integer of magnitude at most 2^53 is exactly representable
as a JavaScript number, is serialised by `JSON.stringify` as its plain
decimal digits, and is recovered exactly by `JSON.parse`; fractional and
exponent literals (whose values are IEEE-754 doubles) are outside the
modelled fragment.  Object member lists model JavaScript objects, whose
keys are necessarily distinct. -/

mutual
inductive Json where
  | null : Json
  | bool (b : Bool) : Json
  | num (n : Int) : Json
  | str (s : Str) : Json
  | arr (xs : JsonList) : Json
  | obj (kvs : JsonMembers) : Json
inductive JsonList where
  | nil : JsonList
  | cons (hd : Json) (tl : JsonList) : JsonList
inductive JsonMembers where
  | nil : JsonMembers
  | cons (k : Str) (v : Json) (tl : JsonMembers) : JsonMembers
end

/-- The `{` character (written by code point to keep braces out of
string literals). -/
def lbrace : Char := Char.ofNat 123

/-- The `}` character. -/
def rbrace : Char := Char.ofNat 125

/-- `JSON.stringify`'s escaping of one character inside a string literal
(ECMA-262 QuoteJSONString). -/
def quoteChar (c : Char) : Str :=
  if c = '"' then ['\\', '"']
  else if c = '\\' then ['\\', '\\']
  else if c = Char.ofNat 8 then ['\\', 'b']
  else if c = Char.ofNat 9 then ['\\', 't']
  else if c = Char.ofNat 10 then ['\\', 'n']
  else if c = Char.ofNat 12 then ['\\', 'f']
  else if c = Char.ofNat 13 then ['\\', 'r']
  else if c.toNat < 0x20 then
    ['\\', 'u', '0', '0', hexDigit (c.toNat / 16), hexDigit (c.toNat % 16)]
  else [c]

/-- A JSON string literal: quote, escaped body, quote. -/
def quoteStr (s : Str) : Str :=
  '"' :: s.flatMap quoteChar ++ ['"']

/-- Fuel-indexed worker computing base-10 digits, least significant
first (`Nat.digits` itself does not reduce in the kernel). -/
def natDigitsGo : Nat → Nat → List Nat
  | _, 0 => []
  | 0, _ + 1 => []
  | fuel + 1, n + 1 => (n + 1) % 10 :: natDigitsGo fuel ((n + 1) / 10)

/-- Base-10 digits of a natural number, least significant first. -/
def natDigits (n : Nat) : List Nat := natDigitsGo n n

theorem natDigitsGo_eq :
    ∀ (fuel n : Nat), n ≤ fuel → natDigitsGo fuel n = Nat.digits 10 n := by
  intro fuel
  induction fuel with
  | zero =>
    intro n h
    interval_cases n
    simp [natDigitsGo]
  | succ f ih =>
    intro n h
    cases n with
    | zero => simp [natDigitsGo]
    | succ m =>
      rw [show natDigitsGo (f + 1) (m + 1) =
          (m + 1) % 10 :: natDigitsGo f ((m + 1) / 10) from rfl,
        Nat.digits_def' (by norm_num : (1:Nat) < 10) (Nat.succ_pos m),
        ih ((m + 1) / 10) (by
          have := Nat.div_lt_self (Nat.succ_pos m) (by norm_num : (1:Nat) < 10)
          omega)]

theorem natDigits_eq (n : Nat) : natDigits n = Nat.digits 10 n :=
  natDigitsGo_eq n n (le_refl n)

/-- Decimal digits of a natural number (most significant first). -/
def natToStr (n : Nat) : Str :=
  if n = 0 then ['0'] else ((natDigits n).map hexDigit).reverse

/-- Decimal representation of an integer. -/
def intToStr (i : Int) : Str :=
  if i < 0 then '-' :: natToStr i.natAbs else natToStr i.toNat

mutual
/-- `JSON.stringify` (no spacing argument, as called by `jsonToDataUrl`). -/
def stringify : Json → Str
  | .null => str "null"
  | .bool true => str "true"
  | .bool false => str "false"
  | .num n => intToStr n
  | .str s => quoteStr s
  | .arr xs => '[' :: stringifyElems xs ++ [']']
  | .obj kvs => lbrace :: stringifyMembers kvs ++ [rbrace]
/-- Comma-separated serialisation of array elements. -/
def stringifyElems : JsonList → Str
  | .nil => []
  | .cons x .nil => stringify x
  | .cons x (.cons y t) =>
    stringify x ++ ',' :: stringifyElems (.cons y t)
/-- Comma-separated serialisation of object members. -/
def stringifyMembers : JsonMembers → Str
  | .nil => []
  | .cons k v .nil => quoteStr k ++ ':' :: stringify v
  | .cons k v (.cons k2 v2 t) =>
    quoteStr k ++ ':' :: stringify v ++ ',' ::
      stringifyMembers (.cons k2 v2 t)
end

/-- The keys of an object member list. -/
def memberKeys : JsonMembers → List Str
  | .nil => []
  | .cons k _ t => k :: memberKeys t

mutual
/-- Well-formedness of a modelled JSON value: numbers have magnitude at
most 2^53 (exactly representable as doubles and printed/parsed exactly),
and object keys are distinct (as JavaScript object keys are). -/
def wfJson : Json → Bool
  | .null => true
  | .bool _ => true
  | .num n => n.natAbs ≤ 2 ^ 53
  | .str _ => true
  | .arr xs => wfJsonList xs
  | .obj kvs => (memberKeys kvs).Nodup && wfJsonMembers kvs
def wfJsonList : JsonList → Bool
  | .nil => true
  | .cons x t => wfJson x && wfJsonList t
def wfJsonMembers : JsonMembers → Bool
  | .nil => true
  | .cons _ v t => wfJson v && wfJsonMembers t
end

mutual
/-- Fuel needed by the recursive-descent parser to re-read a value. -/
def cost : Json → Nat
  | .null => 1
  | .bool _ => 1
  | .num _ => 1
  | .str _ => 1
  | .arr xs => 1 + costElems xs
  | .obj kvs => 1 + costMembers kvs
def costElems : JsonList → Nat
  | .nil => 0
  | .cons x t => 1 + cost x + costElems t
def costMembers : JsonMembers → Nat
  | .nil => 0
  | .cons _ v t => 1 + cost v + costMembers t
end

/-- JSON insignificant whitespace. -/
def jsonWs (c : Char) : Bool :=
  c = ' ' ∨ c = Char.ofNat 9 ∨ c = Char.ofNat 10 ∨ c = Char.ofNat 13

/-- Skip insignificant whitespace. -/
def skipWs (l : Str) : Str := l.dropWhile jsonWs

/-- Prepend a character to the string component of a parse result. -/
def ocons (c : Char) : Option (Str × Str) → Option (Str × Str)
  | none => none
  | some (s, r) => some (c :: s, r)

/-- Value of four hex digits. -/
def hex4 (h1 h2 h3 h4 : Char) : Option Nat :=
  (hexVal h1).bind fun v1 => (hexVal h2).bind fun v2 =>
    (hexVal h3).bind fun v3 => (hexVal h4).bind fun v4 =>
      some (v1 * 4096 + v2 * 256 + v3 * 16 + v4)

/-- Decode one escape sequence after a backslash inside a JSON string
literal, returning the character and the remaining input.  `\uXXXX`
surrogate pairs are combined into one scalar value; a lone surrogate
escape (legal in JavaScript's UTF-16 strings but not representable as a
Unicode scalar value) is outside the modelled fragment and rejected. -/
def escStep : Str → Option (Char × Str)
  | [] => none
  | e :: rest2 =>
    if e = '"' then some ('"', rest2)
    else if e = '\\' then some ('\\', rest2)
    else if e = '/' then some ('/', rest2)
    else if e = 'b' then some (Char.ofNat 8, rest2)
    else if e = 'f' then some (Char.ofNat 12, rest2)
    else if e = 'n' then some (Char.ofNat 10, rest2)
    else if e = 'r' then some (Char.ofNat 13, rest2)
    else if e = 't' then some (Char.ofNat 9, rest2)
    else if e = 'u' then
      match rest2 with
      | h1 :: h2 :: h3 :: h4 :: rest3 =>
        (hex4 h1 h2 h3 h4).bind fun n =>
          if 0xD800 ≤ n ∧ n < 0xDC00 then
            match rest3 with
            | '\\' :: 'u' :: g1 :: g2 :: g3 :: g4 :: rest4 =>
              (hex4 g1 g2 g3 g4).bind fun m =>
                if 0xDC00 ≤ m ∧ m < 0xE000 then
                  some (Char.ofNat
                    (0x10000 + (n - 0xD800) * 0x400 + (m - 0xDC00)), rest4)
                else none
            | _ => none
          else if 0xDC00 ≤ n ∧ n < 0xE000 then none
          else some (Char.ofNat n, rest3)
      | _ => none
    else none

/-- Fuel-indexed worker parsing a JSON string body after the opening
quote, processing escapes. -/
def parseStringGo : Nat → Str → Option (Str × Str)
  | _, [] => none
  | 0, _ :: _ => none
  | fuel + 1, c :: rest =>
    if c = '"' then some ([], rest)
    else if c = '\\' then
      (escStep rest).bind fun p => ocons p.1 (parseStringGo fuel p.2)
    else if c.toNat < 0x20 then none
    else ocons c (parseStringGo fuel rest)

/-- Parse a JSON string body after the opening quote. -/
def parseStringRest (l : Str) : Option (Str × Str) :=
  parseStringGo l.length l

/-- Numeric value of a list of decimal digit characters. -/
def digitsVal (l : Str) : Nat :=
  l.foldl (fun a c => a * 10 + (c.toNat - '0'.toNat)) 0

/-- Parse a JSON number.  Only integer literals (no fraction, no
exponent) are inside the modelled fragment; a fraction or exponent makes
this model reject where `JSON.parse` would produce a non-integral double. -/
def parseNumber (l : Str) : Option (Json × Str) :=
  let neg := l.head? = some '-'
  let l1 := if neg then l.tail else l
  let digits := l1.takeWhile Char.isDigit
  let rest := l1.dropWhile Char.isDigit
  if digits = [] then none
  else if 1 < digits.length ∧ digits.head? = some '0' then none
  else
    match rest with
    | '.' :: _ => none
    | 'e' :: _ => none
    | 'E' :: _ => none
    | _ =>
      some (.num (if neg then -(digitsVal digits : Int) else
        (digitsVal digits : Int)), rest)

/-- Does the input begin like a JSON number? -/
def numberStart : Str → Bool
  | [] => false
  | c :: _ => c = '-' ∨ c.isDigit

mutual
/-- Fuel-indexed recursive-descent `JSON.parse` for a single value,
returning the value and the unconsumed remainder. -/
def parseVal : Nat → Str → Option (Json × Str)
  | 0, _ => none
  | fuel + 1, input =>
    let l := skipWs input
    if (str "null").isPrefixOf l then some (.null, l.drop 4)
    else if (str "true").isPrefixOf l then some (.bool true, l.drop 4)
    else if (str "false").isPrefixOf l then some (.bool false, l.drop 5)
    else if l.head? = some '"' then
      (parseStringRest l.tail).map fun p => (Json.str p.1, p.2)
    else if l.head? = some '[' then
      (if (skipWs l.tail).head? = some ']' then
        some (.arr .nil, (skipWs l.tail).tail)
      else (parseElems fuel (skipWs l.tail)).map fun p => (.arr p.1, p.2))
    else if l.head? = some lbrace then
      (if (skipWs l.tail).head? = some rbrace then
        some (.obj .nil, (skipWs l.tail).tail)
      else (parseMembers fuel (skipWs l.tail)).map fun p => (.obj p.1, p.2))
    else if numberStart l then parseNumber l
    else none
/-- Parse one or more comma-separated array elements up to the closing
bracket. -/
def parseElems : Nat → Str → Option (JsonList × Str)
  | 0, _ => none
  | fuel + 1, l =>
    (parseVal fuel l).bind fun p =>
      let r := skipWs p.2
      if r.head? = some ',' then
        (parseElems fuel r.tail).map fun q => (.cons p.1 q.1, q.2)
      else if r.head? = some ']' then some (.cons p.1 .nil, r.tail)
      else none
/-- Parse one or more comma-separated object members up to the closing
brace. -/
def parseMembers : Nat → Str → Option (JsonMembers × Str)
  | 0, _ => none
  | fuel + 1, l =>
    let l1 := skipWs l
    if l1.head? = some '"' then
      (parseStringRest l1.tail).bind fun pk =>
        let r1 := skipWs pk.2
        if r1.head? = some ':' then
          (parseVal fuel r1.tail).bind fun pv =>
            let r3 := skipWs pv.2
            if r3.head? = some ',' then
              (parseMembers fuel r3.tail).map fun q =>
                (.cons pk.1 pv.1 q.1, q.2)
            else if r3.head? = some rbrace then
              some (.cons pk.1 pv.1 .nil, r3.tail)
            else none
        else none
    else none
end

/-- `JSON.parse`: parse a complete value and require only whitespace to
remain (`none` models a thrown `SyntaxError`). -/
def jsonParse (s : Str) : Option Json :=
  (parseVal (s.length + 1) s).bind fun p =>
    if skipWs p.2 = [] then some p.1 else none

deriving instance DecidableEq for Json, JsonList, JsonMembers

/-! ### Round-trip of the JSON codec -/

theorem char_ne_of_toNat_ne {c d : Char} (h : c.toNat ≠ d.toNat) :
    c ≠ d := fun he => h (he ▸ rfl)

theorem isDigit_toNat {c : Char} (h : c.isDigit = true) :
    48 ≤ c.toNat ∧ c.toNat ≤ 57 := by
  simp only [Char.isDigit, Bool.and_eq_true, decide_eq_true_eq] at h
  obtain ⟨h1, h2⟩ := h
  constructor
  · exact h1
  · exact h2

theorem hexDigit_toNat {d : Nat} (h : d < 10) :
    (hexDigit d).toNat = 48 + d := by
  interval_cases d <;> rfl

/-- Every output of `quoteChar` is nonempty. -/
theorem quoteChar_ne_nil (c : Char) : quoteChar c ≠ [] := by
  unfold quoteChar
  repeat' split
  all_goals simp

theorem length_le_flatMap_quoteChar (s : Str) :
    s.length ≤ (s.flatMap quoteChar).length := by
  induction s with
  | nil => simp
  | cons c cs ih =>
    simp only [List.flatMap_cons, List.length_append, List.length_cons]
    have : 1 ≤ (quoteChar c).length := by
      have := quoteChar_ne_nil c
      cases hq : quoteChar c with
      | nil => exact absurd hq this
      | cons a t => simp
    omega

theorem escStep_named {e : Char} {out : Char} (r : Str)
    (h : (e = '"' ∧ out = '"') ∨ (e = '\\' ∧ out = '\\') ∨
      (e = 'b' ∧ out = Char.ofNat 8) ∨ (e = 'f' ∧ out = Char.ofNat 12) ∨
      (e = 'n' ∧ out = Char.ofNat 10) ∨ (e = 'r' ∧ out = Char.ofNat 13) ∨
      (e = 't' ∧ out = Char.ofNat 9)) :
    escStep (e :: r) = some (out, r) := by
  rcases h with ⟨he, ho⟩ | ⟨he, ho⟩ | ⟨he, ho⟩ | ⟨he, ho⟩ | ⟨he, ho⟩ |
    ⟨he, ho⟩ | ⟨he, ho⟩ <;> subst he <;> subst ho <;> rfl

theorem escStep_hex {t : Nat} (r : Str) (h : t < 32) :
    escStep ('u' :: '0' :: '0' :: hexDigit (t / 16) ::
      hexDigit (t % 16) :: r) = some (Char.ofNat t, r) := by
  simp only [escStep, if_true, if_false]
  have hh : hex4 '0' '0' (hexDigit (t / 16)) (hexDigit (t % 16)) =
      some t := by
    unfold hex4
    rw [show hexVal '0' = some 0 from rfl,
      hexVal_hexDigit (show t / 16 < 16 by omega),
      hexVal_hexDigit (show t % 16 < 16 by omega)]
    simp only [Option.some_bind]
    congr 1
    omega
  rw [if_neg (show ¬ ('u' : Char) = '/' by decide),
    if_neg (show ¬ ('u' : Char) = 'b' by decide),
    if_neg (show ¬ ('u' : Char) = 'f' by decide),
    if_neg (show ¬ ('u' : Char) = 'n' by decide),
    if_neg (show ¬ ('u' : Char) = 'r' by decide),
    if_neg (show ¬ ('u' : Char) = 't' by decide), hh]
  simp only [Option.some_bind]
  rw [if_neg (show ¬ (55296 ≤ t ∧ t < 56320) by omega),
    if_neg (show ¬ (56320 ≤ t ∧ t < 57344) by omega),
    if_neg (show ¬ ('u' : Char) = '"' by decide),
    if_neg (show ¬ ('u' : Char) = '\\' by decide)]

theorem parseStringGo_succ (f : Nat) (c : Char) (rest : Str) :
    parseStringGo (f + 1) (c :: rest) =
      if c = '"' then some ([], rest)
      else if c = '\\' then
        (escStep rest).bind fun p => ocons p.1 (parseStringGo f p.2)
      else if c.toNat < 0x20 then none
      else ocons c (parseStringGo f rest) := rfl

theorem parseStringGo_quote :
    ∀ (fuel : Nat) (s : Str) (rest : Str), s.length < fuel →
      parseStringGo fuel (s.flatMap quoteChar ++ '"' :: rest) =
        some (s, rest) := by
  intro fuel
  induction fuel with
  | zero => intro s rest h; omega
  | succ f ih =>
    intro s rest h
    cases s with
    | nil =>
      simp only [List.flatMap_nil, List.nil_append, parseStringGo_succ]
      simp
    | cons c cs =>
      simp only [List.flatMap_cons, List.append_assoc]
      have hcs : cs.length < f := by
        simp only [List.length_cons] at h
        omega
      have htail := ih cs rest hcs
      by_cases h1 : c = '"'
      · rw [show quoteChar c = ['\\', '"'] by unfold quoteChar; rw [if_pos h1]]
        simp only [List.cons_append, List.nil_append, parseStringGo_succ]
        simp only [if_true, if_false]
        rw [escStep_named _ (Or.inl ⟨rfl, rfl⟩), Option.some_bind, htail]
        subst h1
        rfl
      · by_cases h2 : c = '\\'
        · rw [show quoteChar c = ['\\', '\\'] by
            unfold quoteChar; rw [if_neg h1, if_pos h2]]
          simp only [List.cons_append, List.nil_append, parseStringGo_succ]
          simp only [if_true, if_false]
          rw [escStep_named _ (Or.inr (Or.inl ⟨rfl, rfl⟩)), Option.some_bind,
            htail]
          subst h2
          rfl
        · by_cases h3 : c = Char.ofNat 8
          · rw [show quoteChar c = ['\\', 'b'] by
              unfold quoteChar; rw [if_neg h1, if_neg h2, if_pos h3]]
            simp only [List.cons_append, List.nil_append, parseStringGo_succ]
            simp only [if_true, if_false]
            rw [escStep_named _ (Or.inr (Or.inr (Or.inl ⟨rfl, rfl⟩))),
              Option.some_bind, htail]
            subst h3
            rfl
          · by_cases h4 : c = Char.ofNat 9
            · rw [show quoteChar c = ['\\', 't'] by
                unfold quoteChar
                rw [if_neg h1, if_neg h2, if_neg h3, if_pos h4]]
              simp only [List.cons_append, List.nil_append,
                parseStringGo_succ]
              simp only [if_true, if_false]
              rw [escStep_named _ (Or.inr (Or.inr (Or.inr (Or.inr (Or.inr
                  (Or.inr ⟨rfl, rfl⟩)))))),
                Option.some_bind, htail]
              subst h4
              rfl
            · by_cases h5 : c = Char.ofNat 10
              · rw [show quoteChar c = ['\\', 'n'] by
                  unfold quoteChar
                  rw [if_neg h1, if_neg h2, if_neg h3, if_neg h4, if_pos h5]]
                simp only [List.cons_append, List.nil_append,
                  parseStringGo_succ]
                simp only [if_true, if_false]
                rw [escStep_named _ (Or.inr (Or.inr (Or.inr (Or.inr
                    (Or.inl ⟨rfl, rfl⟩))))),
                  Option.some_bind, htail]
                subst h5
                rfl
              · by_cases h6 : c = Char.ofNat 12
                · rw [show quoteChar c = ['\\', 'f'] by
                    unfold quoteChar
                    rw [if_neg h1, if_neg h2, if_neg h3, if_neg h4,
                      if_neg h5, if_pos h6]]
                  simp only [List.cons_append, List.nil_append,
                    parseStringGo_succ]
                  simp only [if_true, if_false]
                  rw [escStep_named _ (Or.inr (Or.inr (Or.inr
                      (Or.inl ⟨rfl, rfl⟩)))),
                    Option.some_bind, htail]
                  subst h6
                  rfl
                · by_cases h7 : c = Char.ofNat 13
                  · rw [show quoteChar c = ['\\', 'r'] by
                      unfold quoteChar
                      rw [if_neg h1, if_neg h2, if_neg h3, if_neg h4,
                        if_neg h5, if_neg h6, if_pos h7]]
                    simp only [List.cons_append, List.nil_append,
                      parseStringGo_succ]
                    simp only [if_true, if_false]
                    rw [escStep_named _ (Or.inr (Or.inr (Or.inr (Or.inr
                        (Or.inr (Or.inl ⟨rfl, rfl⟩)))))),
                      Option.some_bind, htail]
                    subst h7
                    rfl
                  · by_cases h8 : c.toNat < 0x20
                    · rw [show quoteChar c = ['\\', 'u', '0', '0',
                          hexDigit (c.toNat / 16), hexDigit (c.toNat % 16)] by
                        unfold quoteChar
                        rw [if_neg h1, if_neg h2, if_neg h3, if_neg h4,
                          if_neg h5, if_neg h6, if_neg h7, if_pos h8]]
                      simp only [List.cons_append, List.nil_append,
                        parseStringGo_succ]
                      simp only [if_true, if_false]
                      rw [escStep_hex _ h8, Option.some_bind, htail]
                      simp [ocons, Char.ofNat_toNat]
                    · rw [show quoteChar c = [c] by
                        unfold quoteChar
                        rw [if_neg h1, if_neg h2, if_neg h3, if_neg h4,
                          if_neg h5, if_neg h6, if_neg h7, if_neg h8]]
                      simp only [List.cons_append, List.nil_append,
                        parseStringGo_succ]
                      rw [if_neg h1, if_neg h2, if_neg h8, htail]
                      rfl

theorem takeWhile_app {p : Char → Bool} {A B : Str}
    (hA : ∀ a ∈ A, p a = true)
    (hB : B = [] ∨ ∃ b bt, B = b :: bt ∧ p b = false) :
    (A ++ B).takeWhile p = A ∧ (A ++ B).dropWhile p = B := by
  induction A with
  | nil =>
    simp only [List.nil_append]
    rcases hB with hB | ⟨b, bt, hB, hpb⟩
    · subst hB; simp
    · subst hB
      simp [List.takeWhile_cons, List.dropWhile_cons, hpb]
  | cons a A ih =>
    have hpa := hA a (by simp)
    have hrec := ih (fun x hx => hA x (by simp [hx]))
    simp only [List.cons_append, List.takeWhile_cons, List.dropWhile_cons,
      hpa]
    simp [hrec.1, hrec.2]

theorem natToStr_ne_nil (n : Nat) : natToStr n ≠ [] := by
  unfold natToStr
  split
  · simp
  · rename_i hn
    have : Nat.digits 10 n ≠ [] := by
      rw [Nat.digits_ne_nil_iff_ne_zero]
      exact hn
    simp only [natDigits_eq, ne_eq, List.reverse_eq_nil_iff,
      List.map_eq_nil_iff]
    exact this

theorem natToStr_all_digits (n : Nat) :
    ∀ c ∈ natToStr n, c.isDigit = true := by
  intro c hc
  unfold natToStr at hc
  split at hc
  · simp at hc
    subst hc
    decide
  · rw [natDigits_eq] at hc
    simp only [List.mem_reverse, List.mem_map] at hc
    obtain ⟨d, hd, hcd⟩ := hc
    have hlt : d < 10 := Nat.digits_lt_base (by norm_num) hd
    subst hcd
    interval_cases d <;> decide

theorem digitsVal_natToStr (n : Nat) : digitsVal (natToStr n) = n := by
  have main : ∀ (ds : List Nat) (a : Nat), (∀ d ∈ ds, d < 10) →
      List.foldl (fun acc c => acc * 10 + (c.toNat - '0'.toNat)) a
        ((ds.map hexDigit).reverse) =
      a * 10 ^ ds.length + Nat.ofDigits 10 ds := by
    intro ds
    induction ds with
    | nil => intro a _; simp [Nat.ofDigits_nil]
    | cons d t ih =>
      intro a hds
      have hd : d < 10 := hds d (by simp)
      simp only [List.map_cons, List.reverse_cons, List.foldl_append,
        List.foldl_cons, List.foldl_nil]
      rw [ih a (fun x hx => hds x (by simp [hx]))]
      have hchar : (hexDigit d).toNat - '0'.toNat = d := by
        rw [hexDigit_toNat hd, show '0'.toNat = 48 from rfl]
        omega
      rw [hchar, Nat.ofDigits_cons]
      simp only [List.length_cons, pow_succ]
      ring
  unfold natToStr
  split
  · rename_i hn
    subst hn
    decide
  · rename_i hn
    unfold digitsVal
    rw [natDigits_eq,
      main (Nat.digits 10 n) 0 (fun d hd => Nat.digits_lt_base (by norm_num) hd)]
    simp [Nat.ofDigits_digits]

theorem natToStr_no_leading_zero {n : Nat} (h : 1 < (natToStr n).length) :
    (natToStr n).head? ≠ some '0' := by
  by_cases hn : n = 0
  · subst hn
    simp [natToStr] at h
  · intro hcon
    unfold natToStr at hcon
    rw [if_neg hn, natDigits_eq, List.head?_reverse] at hcon
    have hnil : Nat.digits 10 n ≠ [] := by
      rw [Nat.digits_ne_nil_iff_ne_zero]
      exact hn
    have hlast : (Nat.digits 10 n).getLast? =
        some ((Nat.digits 10 n).getLast hnil) :=
      List.getLast?_eq_getLast _ _
    have hmapLast : ((Nat.digits 10 n).map hexDigit).getLast? =
        some (hexDigit ((Nat.digits 10 n).getLast hnil)) := by
      rw [List.getLast?_map, hlast]
      rfl
    rw [hmapLast] at hcon
    simp only [Option.some.injEq] at hcon
    have hne := Nat.getLast_digit_ne_zero 10 hn
    have hlt : (Nat.digits 10 n).getLast hnil < 10 :=
      Nat.digits_lt_base (by norm_num) (List.getLast_mem _)
    set d := (Nat.digits 10 n).getLast hnil with hd
    interval_cases d
    · exact hne rfl
    all_goals exact absurd hcon (by decide)

/-- The head of a rendered natural number is a decimal digit. -/
theorem natToStr_head_digit (n : Nat) :
    ∃ c t, natToStr n = c :: t ∧ c.isDigit = true := by
  cases hs : natToStr n with
  | nil => exact absurd hs (natToStr_ne_nil n)
  | cons c t =>
    refine ⟨c, t, rfl, ?_⟩
    have := natToStr_all_digits n c (by rw [hs]; simp)
    exact this

/-- What the parser needs of the characters that may legally follow a
rendered number. -/
def delimOk : Str → Prop
  | [] => True
  | c :: _ => c.isDigit = false ∧ c ≠ '.' ∧ c ≠ 'e' ∧ c ≠ 'E'

theorem parseNumber_side (m : Nat) (rest : Str) (hd : delimOk rest)
    (f : Nat → Int) :
    (let l1 := natToStr m ++ rest
     let digits := l1.takeWhile Char.isDigit
     let rest2 := l1.dropWhile Char.isDigit
     if digits = [] then none
     else if 1 < digits.length ∧ digits.head? = some '0' then none
     else
       match rest2 with
       | '.' :: _ => none
       | 'e' :: _ => none
       | 'E' :: _ => none
       | _ => some (Json.num (f (digitsVal digits)), rest2)) =
    some (Json.num (f m), rest) := by
  have hB : rest = [] ∨ ∃ b bt, rest = b :: bt ∧ Char.isDigit b = false := by
    cases rest with
    | nil => left; rfl
    | cons b t => right; exact ⟨b, t, rfl, hd.1⟩
  have htw := takeWhile_app (p := Char.isDigit)
    (natToStr_all_digits m) hB
  simp only [htw.1, htw.2]
  rw [if_neg (by simp [natToStr_ne_nil]),
    if_neg (by
      intro hcon
      exact natToStr_no_leading_zero hcon.1 hcon.2)]
  have hval : some (Json.num (f (digitsVal (natToStr m))), rest) =
      some (Json.num (f m), rest) := by
    rw [digitsVal_natToStr]
  cases rest with
  | nil => exact hval
  | cons b t =>
    obtain ⟨hdig, hdot, he, hE⟩ := hd
    split
    · rename_i heq
      injection heq with hb _
      exact absurd hb hdot
    · rename_i heq
      injection heq with hb _
      exact absurd hb he
    · rename_i heq
      injection heq with hb _
      exact absurd hb hE
    · exact hval

theorem parseNumber_intToStr (i : Int) (rest : Str) (hd : delimOk rest) :
    parseNumber (intToStr i ++ rest) = some (.num i, rest) := by
  by_cases hneg : i < 0
  · have hi : intToStr i = '-' :: natToStr i.natAbs := by
      unfold intToStr
      rw [if_pos hneg]
    rw [hi]
    unfold parseNumber
    simp only [List.cons_append, List.head?_cons, List.tail_cons,
      Option.some.injEq, if_pos rfl, if_true]
    have := parseNumber_side i.natAbs rest hd (fun n => -(n : Int))
    simp only at this ⊢
    rw [this, show -(i.natAbs : Int) = i by omega]
  · have hi : intToStr i = natToStr i.toNat := by
      unfold intToStr
      rw [if_neg hneg]
    rw [hi]
    unfold parseNumber
    obtain ⟨c, t, hct, hcdig⟩ := natToStr_head_digit i.toNat
    have hhead : ¬ ((natToStr i.toNat ++ rest).head? = some '-') := by
      rw [hct]
      simp only [List.cons_append, List.head?_cons,
        Option.some.injEq]
      intro hcon
      have hb := isDigit_toNat hcdig
      subst hcon
      rw [show ('-').toNat = 45 from rfl] at hb
      omega
    simp only [if_neg hhead]
    have := parseNumber_side i.toNat rest hd (fun n => (n : Int))
    simp only at this ⊢
    rw [this, show (i.toNat : Int) = i by omega]

theorem isPrefixOf_head_ne {x c : Char} {xs cs : Str} (h : ¬ x = c) :
    (x :: xs).isPrefixOf (c :: cs) = false := by
  simp [List.isPrefixOf_cons₂, h]

theorem digit_head_class {c : Char} (h : c.isDigit = true) :
    jsonWs c = false ∧ ¬ c = ']' ∧ ¬ c = rbrace ∧ ¬ c = ',' ∧
      ¬ c = '"' ∧ ¬ c = '[' ∧ ¬ c = lbrace ∧ ¬ c = 'n' ∧ ¬ c = 't' ∧
      ¬ c = 'f' := by
  have hb := isDigit_toNat h
  refine ⟨?_, ?_, ?_, ?_, ?_, ?_, ?_, ?_, ?_, ?_⟩
  · simp only [jsonWs, Bool.decide_or, Bool.or_eq_false_iff,
      decide_eq_false_iff_not]
    refine ⟨?_, ?_, ?_, ?_⟩ <;>
      · apply char_ne_of_toNat_ne
        intro hcon
        simp only [Char.toNat] at hcon hb
        first
        | (rw [show (' ').val.toNat = 32 from rfl] at hcon; omega)
        | (rw [show (Char.ofNat 9).val.toNat = 9 from rfl] at hcon; omega)
        | (rw [show (Char.ofNat 10).val.toNat = 10 from rfl] at hcon; omega)
        | (rw [show (Char.ofNat 13).val.toNat = 13 from rfl] at hcon; omega)
  all_goals
    apply char_ne_of_toNat_ne
    intro hcon
    first
    | (rw [show (']').toNat = 93 from rfl] at hcon; omega)
    | (rw [show rbrace.toNat = 125 from rfl] at hcon; omega)
    | (rw [show (',').toNat = 44 from rfl] at hcon; omega)
    | (rw [show ('"').toNat = 34 from rfl] at hcon; omega)
    | (rw [show ('[').toNat = 91 from rfl] at hcon; omega)
    | (rw [show lbrace.toNat = 123 from rfl] at hcon; omega)
    | (rw [show ('n').toNat = 110 from rfl] at hcon; omega)
    | (rw [show ('t').toNat = 116 from rfl] at hcon; omega)
    | (rw [show ('f').toNat = 102 from rfl] at hcon; omega)

theorem intToStr_head (i : Int) :
    ∃ c t, intToStr i = c :: t ∧ (c = '-' ∨ c.isDigit = true) := by
  unfold intToStr
  by_cases hneg : i < 0
  · rw [if_pos hneg]
    exact ⟨'-', natToStr i.natAbs, rfl, Or.inl rfl⟩
  · rw [if_neg hneg]
    obtain ⟨c, t, hct, hdig⟩ := natToStr_head_digit i.toNat
    exact ⟨c, t, hct, Or.inr hdig⟩

theorem intToStr_ne_nil (i : Int) : intToStr i ≠ [] := by
  obtain ⟨c, t, hct, _⟩ := intToStr_head i
  rw [hct]
  simp

mutual
theorem cost_le : ∀ v : Json, cost v ≤ (stringify v).length
  | .null => by simp [cost, stringify, str]
  | .bool b => by cases b <;> simp [cost, stringify, str]
  | .num n => by
    have h := intToStr_ne_nil n
    have : 1 ≤ (intToStr n).length := by
      cases hs : intToStr n with
      | nil => exact absurd hs h
      | cons c t => simp
    simpa [cost, stringify] using this
  | .str s => by
    simp only [cost, stringify, quoteStr, List.length_cons,
      List.length_append]
    omega
  | .arr xs => by
    have h := costElems_le xs
    simp only [cost, stringify, List.length_cons, List.length_append]
    omega
  | .obj kvs => by
    have h := costMembers_le kvs
    simp only [cost, stringify, List.length_cons, List.length_append]
    omega
theorem costElems_le : ∀ xs : JsonList,
    costElems xs ≤ (stringifyElems xs).length + 1
  | .nil => by simp [costElems, stringifyElems]
  | .cons x .nil => by
    have h := cost_le x
    simp only [costElems, stringifyElems]
    omega
  | .cons x (.cons y t) => by
    have h1 := cost_le x
    have h2 := costElems_le (.cons y t)
    simp only [costElems, stringifyElems, List.length_append,
      List.length_cons] at h2 ⊢
    omega
theorem costMembers_le : ∀ kvs : JsonMembers,
    costMembers kvs ≤ (stringifyMembers kvs).length + 1
  | .nil => by simp [costMembers, stringifyMembers]
  | .cons k v .nil => by
    have h := cost_le v
    simp only [costMembers, stringifyMembers, List.length_append,
      List.length_cons]
    omega
  | .cons k v (.cons k2 v2 t) => by
    have h1 := cost_le v
    have h2 := costMembers_le (.cons k2 v2 t)
    simp only [costMembers, stringifyMembers, List.length_append,
      List.length_cons] at h2 ⊢
    omega
end

/-- The first character of any serialised value: never whitespace, and
never a closing delimiter or comma. -/
theorem stringify_shape (v : Json) :
    ∃ c t, stringify v = c :: t ∧ jsonWs c = false ∧ ¬ c = ']' ∧
      ¬ c = rbrace ∧ ¬ c = ',' := by
  cases v with
  | null => exact ⟨'n', _, rfl, by decide, by decide, by decide, by decide⟩
  | bool b =>
    cases b with
    | true => exact ⟨'t', _, rfl, by decide, by decide, by decide, by decide⟩
    | false =>
      exact ⟨'f', _, rfl, by decide, by decide, by decide, by decide⟩
  | num n =>
    obtain ⟨c, t, hct, hc⟩ := intToStr_head n
    refine ⟨c, t, hct, ?_⟩
    rcases hc with hc | hc
    · subst hc
      exact ⟨by decide, by decide, by decide, by decide⟩
    · have := digit_head_class hc
      exact ⟨this.1, this.2.1, this.2.2.1, this.2.2.2.1⟩
  | str s => exact ⟨'"', _, rfl, by decide, by decide, by decide, by decide⟩
  | arr xs => exact ⟨'[', _, rfl, by decide, by decide, by decide, by decide⟩
  | obj kvs =>
    exact ⟨lbrace, _, rfl, by decide, by decide, by decide, by decide⟩

theorem cost_pos (v : Json) : 1 ≤ cost v := by
  cases v <;> simp [cost]

theorem skipWs_stringify (v : Json) (rest : Str) :
    skipWs (stringify v ++ rest) = stringify v ++ rest := by
  obtain ⟨c, t, hct, hws, _, _, _⟩ := stringify_shape v
  rw [hct]
  simp only [List.cons_append, skipWs, List.dropWhile_cons, hws]
  simp

theorem skipWs_cons {c : Char} (u : Str) (h : jsonWs c = false) :
    skipWs (c :: u) = c :: u := by
  simp [skipWs, List.dropWhile_cons, h]

theorem parseStringRest_quote {s : Str} (rest : Str) :
    parseStringRest (s.flatMap quoteChar ++ '"' :: rest) =
      some (s, rest) := by
  unfold parseStringRest
  apply parseStringGo_quote
  have h1 := length_le_flatMap_quoteChar s
  simp only [List.length_append, List.length_cons]
  omega

theorem ipo_false {x c : Char} {xs cs : Str} (h : ¬ x = c) :
    ¬ ((x :: xs).isPrefixOf (c :: cs) = true) := by
  rw [isPrefixOf_head_ne h]
  simp

theorem head_ne_some {c d : Char} (u : Str) (h : ¬ c = d) :
    ¬ ((c :: u).head? = some d) := by
  simp only [List.head?_cons, Option.some.injEq]
  exact h

theorem numberStart_cons {c : Char} (u : Str)
    (h : c = '-' ∨ c.isDigit = true) : numberStart (c :: u) = true := by
  simp only [numberStart, decide_eq_true_eq]
  exact h

theorem parse_stringify_all : ∀ fuel : Nat,
    (∀ (v : Json) (rest : Str), cost v ≤ fuel → delimOk rest →
      parseVal fuel (stringify v ++ rest) = some (v, rest)) ∧
    (∀ (x : Json) (xs : JsonList) (rest : Str),
      costElems (.cons x xs) ≤ fuel →
      parseElems fuel (stringifyElems (.cons x xs) ++ ']' :: rest) =
        some (.cons x xs, rest)) ∧
    (∀ (k : Str) (v : Json) (kvs : JsonMembers) (rest : Str),
      costMembers (.cons k v kvs) ≤ fuel →
      parseMembers fuel (stringifyMembers (.cons k v kvs) ++ rbrace :: rest) =
        some (.cons k v kvs, rest)) := by
  intro fuel
  induction fuel with
  | zero =>
    refine ⟨?_, ?_, ?_⟩
    · intro v rest hc _
      have := cost_pos v
      omega
    · intro x xs rest hc
      simp only [costElems] at hc
      have := cost_pos x
      omega
    · intro k v kvs rest hc
      simp only [costMembers] at hc
      have := cost_pos v
      omega
  | succ f ih =>
    obtain ⟨ihA, ihB, ihC⟩ := ih
    refine ⟨?_, ?_, ?_⟩
    · -- parseVal
      intro v rest hc hdel
      cases v with
      | null =>
        simp only [parseVal, skipWs_stringify]
        rw [show stringify Json.null ++ rest = 'n' :: 'u' :: 'l' :: 'l' :: rest
            from rfl,
          show str "null" = 'n' :: ['u','l','l'] from rfl]
        rw [if_pos (by
          simp [List.isPrefixOf_cons₂, List.isPrefixOf_nil_left])]
        rfl
      | bool b =>
        cases b with
        | true =>
          simp only [parseVal, skipWs_stringify]
          rw [show stringify (Json.bool true) ++ rest =
              't' :: 'r' :: 'u' :: 'e' :: rest from rfl,
            show str "null" = 'n' :: ['u','l','l'] from rfl,
            show str "true" = 't' :: ['r','u','e'] from rfl]
          rw [if_neg (ipo_false (by decide)),
            if_pos (by
              simp [List.isPrefixOf_cons₂, List.isPrefixOf_nil_left])]
          rfl
        | false =>
          simp only [parseVal, skipWs_stringify]
          rw [show stringify (Json.bool false) ++ rest =
              'f' :: 'a' :: 'l' :: 's' :: 'e' :: rest from rfl,
            show str "null" = 'n' :: ['u','l','l'] from rfl,
            show str "true" = 't' :: ['r','u','e'] from rfl,
            show str "false" = 'f' :: ['a','l','s','e'] from rfl]
          rw [if_neg (ipo_false (by decide)),
            if_neg (ipo_false (by decide)),
            if_pos (by
              simp [List.isPrefixOf_cons₂, List.isPrefixOf_nil_left])]
          rfl
      | num n =>
        obtain ⟨c, t, hct, hcc⟩ := intToStr_head n
        have hclass : ¬ c = 'n' ∧ ¬ c = 't' ∧ ¬ c = 'f' ∧ ¬ c = '"' ∧
            ¬ c = '[' ∧ ¬ c = lbrace := by
          rcases hcc with hcc | hcc
          · subst hcc
            exact ⟨by decide, by decide, by decide, by decide, by decide,
              by decide⟩
          · have := digit_head_class hcc
            exact ⟨this.2.2.2.2.2.2.2.1, this.2.2.2.2.2.2.2.2.1,
              this.2.2.2.2.2.2.2.2.2, this.2.2.2.2.1, this.2.2.2.2.2.1,
              this.2.2.2.2.2.2.1⟩
        simp only [parseVal, skipWs_stringify]
        rw [show stringify (Json.num n) = intToStr n from rfl, hct]
        simp only [List.cons_append]
        rw [show str "null" = 'n' :: ['u','l','l'] from rfl,
          show str "true" = 't' :: ['r','u','e'] from rfl,
          show str "false" = 'f' :: ['a','l','s','e'] from rfl]
        rw [if_neg (ipo_false (fun h => hclass.1 h.symm)),
          if_neg (ipo_false (fun h => hclass.2.1 h.symm)),
          if_neg (ipo_false (fun h => hclass.2.2.1 h.symm)),
          if_neg (head_ne_some _ hclass.2.2.2.1),
          if_neg (head_ne_some _ hclass.2.2.2.2.1),
          if_neg (head_ne_some _ hclass.2.2.2.2.2),
          if_pos (numberStart_cons _ hcc)]
        rw [← List.cons_append, ← hct]
        exact parseNumber_intToStr n rest hdel
      | str s =>
        simp only [parseVal, skipWs_stringify]
        rw [show stringify (Json.str s) =
          '"' :: (s.flatMap quoteChar ++ ['"']) from rfl]
        simp only [List.cons_append, List.append_assoc, List.nil_append]
        rw [show str "null" = 'n' :: ['u','l','l'] from rfl,
          show str "true" = 't' :: ['r','u','e'] from rfl,
          show str "false" = 'f' :: ['a','l','s','e'] from rfl]
        rw [if_neg (ipo_false (by decide)),
          if_neg (ipo_false (by decide)),
          if_neg (ipo_false (by decide)),
          if_pos List.head?_cons]
        simp only [List.tail_cons]
        rw [parseStringRest_quote]
        rfl
      | arr xs =>
        simp only [parseVal, skipWs_stringify]
        rw [show stringify (Json.arr xs) =
          '[' :: (stringifyElems xs ++ [']']) from rfl]
        simp only [List.cons_append, List.append_assoc, List.nil_append]
        rw [show str "null" = 'n' :: ['u','l','l'] from rfl,
          show str "true" = 't' :: ['r','u','e'] from rfl,
          show str "false" = 'f' :: ['a','l','s','e'] from rfl]
        rw [if_neg (ipo_false (by decide)),
          if_neg (ipo_false (by decide)),
          if_neg (ipo_false (by decide)),
          if_neg (head_ne_some _ (by decide)),
          if_pos List.head?_cons]
        simp only [List.tail_cons]
        cases xs with
        | nil =>
          rw [show stringifyElems JsonList.nil ++ ']' :: rest =
            ']' :: rest from rfl]
          rw [skipWs_cons _ (show jsonWs ']' = false by decide)]
          rw [if_pos List.head?_cons]
          rfl
        | cons x xs' =>
          obtain ⟨c, t, hct, hws, hbr, _, _⟩ := stringify_shape x
          have hhead : ∃ u, stringifyElems (JsonList.cons x xs') ++
              ']' :: rest = c :: u := by
            cases xs' with
            | nil =>
              exact ⟨t ++ ']' :: rest, by
                rw [show stringifyElems (JsonList.cons x JsonList.nil) =
                  stringify x from rfl, hct]
                simp⟩
            | cons y t2 =>
              refine ⟨t ++ ',' :: (stringifyElems (JsonList.cons y t2) ++
                ']' :: rest), ?_⟩
              rw [show stringifyElems (JsonList.cons x (JsonList.cons y t2)) =
                stringify x ++ ',' :: stringifyElems (JsonList.cons y t2)
                from rfl, hct]
              simp
          obtain ⟨u, hu⟩ := hhead
          rw [hu, skipWs_cons _ hws,
            if_neg (head_ne_some _ hbr), ← hu]
          rw [ihB x xs' rest (by
            simp only [cost, costElems] at hc ⊢
            omega)]
          rfl
      | obj kvs =>
        simp only [parseVal, skipWs_stringify]
        rw [show stringify (Json.obj kvs) =
          lbrace :: (stringifyMembers kvs ++ [rbrace]) from rfl]
        simp only [List.cons_append, List.append_assoc, List.nil_append]
        rw [show str "null" = 'n' :: ['u','l','l'] from rfl,
          show str "true" = 't' :: ['r','u','e'] from rfl,
          show str "false" = 'f' :: ['a','l','s','e'] from rfl]
        rw [if_neg (ipo_false (by decide)),
          if_neg (ipo_false (by decide)),
          if_neg (ipo_false (by decide)),
          if_neg (head_ne_some _ (by decide)),
          if_neg (head_ne_some _ (by decide)),
          if_pos List.head?_cons]
        simp only [List.tail_cons]
        cases kvs with
        | nil =>
          rw [show stringifyMembers JsonMembers.nil ++ rbrace :: rest =
            rbrace :: rest from rfl]
          rw [skipWs_cons _ (show jsonWs rbrace = false by decide)]
          rw [if_pos List.head?_cons]
          rfl
        | cons k v kvs' =>
          have hq : ∃ u, stringifyMembers (JsonMembers.cons k v kvs') ++
              rbrace :: rest = '"' :: u := by
            cases kvs' with
            | nil =>
              refine ⟨k.flatMap quoteChar ++ '"' ::
                (':' :: (stringify v ++ rbrace :: rest)), ?_⟩
              rw [show stringifyMembers (JsonMembers.cons k v
                JsonMembers.nil) = quoteStr k ++ ':' :: stringify v
                from rfl]
              simp [quoteStr]
            | cons k2 v2 t2 =>
              refine ⟨k.flatMap quoteChar ++ '"' ::
                (':' :: (stringify v ++ ',' ::
                  (stringifyMembers (JsonMembers.cons k2 v2 t2) ++
                    rbrace :: rest))), ?_⟩
              rw [show stringifyMembers (JsonMembers.cons k v
                (JsonMembers.cons k2 v2 t2)) = quoteStr k ++ ':' ::
                stringify v ++ ',' :: stringifyMembers
                  (JsonMembers.cons k2 v2 t2) from rfl]
              simp [quoteStr]
          obtain ⟨u, hu⟩ := hq
          rw [hu, skipWs_cons _ (show jsonWs '"' = false by decide),
            if_neg (head_ne_some _ (by decide)), ← hu]
          rw [ihC k v kvs' rest (by
            simp only [cost, costMembers] at hc ⊢
            omega)]
          rfl
    · -- parseElems
      intro x xs rest hc
      cases xs with
      | nil =>
        rw [show stringifyElems (JsonList.cons x JsonList.nil) =
          stringify x from rfl]
        simp only [parseElems]
        rw [ihA x (']' :: rest) (by
            simp only [costElems] at hc
            omega)
          ⟨by decide, by decide, by decide, by decide⟩]
        simp only [Option.some_bind]
        rw [skipWs_cons _ (show jsonWs ']' = false by decide),
          if_neg (head_ne_some _ (by decide)),
          if_pos List.head?_cons]
        rfl
      | cons y t =>
        rw [show stringifyElems (JsonList.cons x (JsonList.cons y t)) =
          stringify x ++ ',' :: stringifyElems (JsonList.cons y t)
          from rfl]
        simp only [parseElems, List.append_assoc, List.cons_append]
        rw [ihA x (',' :: (stringifyElems (JsonList.cons y t) ++
            ']' :: rest)) (by
            simp only [costElems] at hc
            have := cost_pos y
            omega)
          ⟨by decide, by decide, by decide, by decide⟩]
        simp only [Option.some_bind]
        rw [skipWs_cons _ (show jsonWs ',' = false by decide),
          if_pos List.head?_cons]
        simp only [List.tail_cons]
        rw [ihB y t rest (by
          simp only [costElems] at hc ⊢
          have := cost_pos x
          omega)]
        rfl
    · -- parseMembers
      intro k v kvs rest hc
      cases kvs with
      | nil =>
        rw [show stringifyMembers (JsonMembers.cons k v JsonMembers.nil) =
          quoteStr k ++ ':' :: stringify v from rfl]
        simp only [parseMembers, quoteStr, List.cons_append,
          List.append_assoc, List.nil_append]
        rw [skipWs_cons _ (show jsonWs '"' = false by decide),
          if_pos List.head?_cons]
        simp only [List.tail_cons]
        rw [parseStringRest_quote]
        simp only [Option.some_bind]
        rw [skipWs_cons _ (show jsonWs ':' = false by decide),
          if_pos List.head?_cons]
        simp only [List.tail_cons]
        rw [ihA v (rbrace :: rest) (by
            simp only [costMembers] at hc
            omega)
          ⟨by decide, by decide, by decide, by decide⟩]
        simp only [Option.some_bind]
        rw [skipWs_cons _ (show jsonWs rbrace = false by decide),
          if_neg (head_ne_some _ (by decide)),
          if_pos List.head?_cons]
        rfl
      | cons k2 v2 t2 =>
        rw [show stringifyMembers (JsonMembers.cons k v
          (JsonMembers.cons k2 v2 t2)) = quoteStr k ++ ':' ::
          stringify v ++ ',' :: stringifyMembers
            (JsonMembers.cons k2 v2 t2) from rfl]
        simp only [parseMembers, quoteStr, List.cons_append,
          List.append_assoc, List.nil_append]
        rw [skipWs_cons _ (show jsonWs '"' = false by decide),
          if_pos List.head?_cons]
        simp only [List.tail_cons]
        rw [parseStringRest_quote]
        simp only [Option.some_bind]
        rw [skipWs_cons _ (show jsonWs ':' = false by decide),
          if_pos List.head?_cons]
        simp only [List.tail_cons]
        rw [ihA v (',' :: (stringifyMembers (JsonMembers.cons k2 v2 t2) ++
            rbrace :: rest)) (by
            simp only [costMembers] at hc
            have := cost_pos v2
            omega)
          ⟨by decide, by decide, by decide, by decide⟩]
        simp only [Option.some_bind]
        rw [skipWs_cons _ (show jsonWs ',' = false by decide),
          if_pos List.head?_cons]
        simp only [List.tail_cons]
        rw [ihC k2 v2 t2 rest (by
          simp only [costMembers] at hc ⊢
          have := cost_pos v
          omega)]
        rfl

/-- `JSON.parse ∘ JSON.stringify` is the identity on modelled values. -/
theorem jsonParse_stringify (v : Json) :
    jsonParse (stringify v) = some v := by
  unfold jsonParse
  have h := (parse_stringify_all ((stringify v).length + 1)).1 v []
    (by have := cost_le v; omega) trivial
  rw [List.append_nil] at h
  rw [h]
  simp [skipWs]

/-! ### The token codec (`src/v2/dataref.ts`)

Bytes are modelled as natural numbers (with `< 256` stated where it
matters), `ArrayBuffer` as `List Nat`, and fallible operations return
`Except JsErr`.  Network access is an oracle parameter `Str → Option
FetchOpts → Option FetchResp` (`none` models a rejected `fetch`). -/

/-- `MIME_TYPES.TEXT`. -/
def MIME_TEXT : Str := str "text/plain"
/-- `MIME_TYPES.JSON`. -/
def MIME_JSON : Str := str "application/json"
/-- `MIME_TYPES.OCTET_STREAM`. -/
def MIME_OCTET : Str := str "application/octet-stream"
/-- `MIME_TYPES.TYPED_ARRAY`. -/
def MIME_TYPED_ARR : Str := str "application/octet-stream;type="
/-- `MIME_TYPES.URI`. -/
def MIME_URI : Str := str "text/x-uri"

/-- `isDataUrl` on a string: `value.startsWith("data:")`. -/
def isDataUrlStr (s : Str) : Bool := (str "data:").isPrefixOf s

/-- `String.prototype.split` with a one-character separator: keeps empty
pieces, and an empty input yields one empty piece, as in JavaScript. -/
def splitOnChar (sep : Char) : Str → List Str
  | [] => [[]]
  | c :: t =>
    if c = sep then [] :: splitOnChar sep t
    else
      (c :: (splitOnChar sep t).headD []) :: (splitOnChar sep t).tail

/-- `String.prototype.includes`: substring containment. -/
def containsSub (pat : Str) : Str → Bool
  | [] => pat.isPrefixOf []
  | c :: t => pat.isPrefixOf (c :: t) || containsSub pat t

/-- `getMimeType`: the capture of `/^data:([^;]+)/`, else the
octet-stream default.  The capture is the maximal non-empty run of
non-`;` characters after `data:`. -/
def getMimeType (s : Str) : Str :=
  if isDataUrlStr s then
    let capture := (s.drop 5).takeWhile (fun c => ¬ c = ';')
    if capture = [] then MIME_OCTET else capture
  else MIME_OCTET

/-- The capture of `/^data:[^;]+;([^,]+),/` in `getParameters`: the run
between the first `;` and the following `,`, when both delimiters and a
non-empty media kind and capture are present. -/
def getParamString (s : Str) : Option Str :=
  if isDataUrlStr s then
    let tail := s.drop 5
    let mime := tail.takeWhile (fun c => ¬ c = ';')
    let rest := tail.dropWhile (fun c => ¬ c = ';')
    if mime = [] then none
    else if rest = [] then none
    else
      let cap := rest.tail.takeWhile (fun c => ¬ c = ',')
      let rest2 := rest.tail.dropWhile (fun c => ¬ c = ',')
      if cap = [] then none
      else if rest2 = [] then none
      else some cap
  else none

/-- JavaScript object-property assignment on an association list:
overwrite in place if the key exists, else append. -/
def setKV : List (Str × Str) → Str → Str → List (Str × Str)
  | [], k, v => [(k, v)]
  | (k0, v0) :: t, k, v =>
    if k0 = k then (k, v) :: t else (k0, v0) :: setKV t k v

/-- Property lookup on the association list built by `setKV`. -/
def getParam : List (Str × Str) → Str → Option Str
  | [], _ => none
  | (k0, v0) :: t, k => if k0 = k then some v0 else getParam t k

/-- One parameter piece: keep it when the first two components of its
`=`-split are both non-empty (`if (key && value)`). -/
def paramStep (acc : List (Str × Str)) : List Str → List (Str × Str)
  | k :: v :: _ => if ¬ k = [] ∧ ¬ v = [] then setKV acc k v else acc
  | _ => acc

/-- Build the parameter record from the optional parameter segment. -/
def paramsOf : Option Str → List (Str × Str)
  | none => []
  | some ps =>
    (splitOnChar ';' ps).foldl
      (fun acc param => paramStep acc (splitOnChar '=' param)) []

/-- `getParameters`: split the parameter segment on `;`, each piece on
`=`, and keep pieces whose first two components are both non-empty
(`if (key && value)`). -/
def getParameters (s : Str) : List (Str × Str) :=
  paramsOf (getParamString s)

/-- The ways the modelled operations can fail (thrown errors and
rejections). -/
inductive JsErr where
  /-- `fetch` itself rejected (network failure). -/
  | networkError
  /-- `Failed to fetch ...` thrown on a non-ok response. -/
  | fetchFailed
  /-- `Invalid URL data URL`. -/
  | invalidUrlDataUrl
  /-- `Invalid data URL format` (no comma). -/
  | invalidDataUrlFormat
  /-- `atob` threw `InvalidCharacterError`. -/
  | invalidB64
  /-- `decodeURIComponent` threw `URIError`. -/
  | uriError
  /-- `JSON.parse` threw `SyntaxError` (or produced a value outside the
  modelled JSON fragment). -/
  | jsonSyntaxError
  /-- `Data URL does not contain type parameter`. -/
  | missingTypeParam
  /-- the `type` parameter names no supported typed-array constructor
  (`globalThis` lookups outside the eleven supported names are outside
  the modelled fragment). -/
  | badTypedArrayType
  /-- `RangeError`: buffer length not a multiple of the element size. -/
  | rangeError
  /-- `TypeError` thrown during the rebuild assignment pass. -/
  | typeError
deriving DecidableEq

deriving instance DecidableEq for Except

/-- Fetch options: only their presence is observable in the modelled
code (`RequestInit` contents are passed through to the oracle). -/
structure FetchOpts where
  tag : Nat := 0
deriving DecidableEq

/-- An HTTP response as observed by the modelled code: `ok`, the body
bytes, and the `Content-Type` header (unread by the code, but the spec
mentions it). -/
structure FetchResp where
  ok : Bool
  body : List Nat
  contentType : Option Str
deriving DecidableEq

/-- The network oracle: `none` models a rejected `fetch` promise. -/
def Fetcher := Str → Option FetchOpts → Option FetchResp

/-- `textToDataUrl`. -/
def textToDataUrl (text : Str) : Str :=
  str "data:text/plain;charset=utf-8," ++ encodeURIComponent text

/-- `jsonToDataUrl` (the argument is already a modelled JSON value). -/
def jsonToDataUrl (data : Json) : Str :=
  str "data:application/json;charset=utf-8," ++
    encodeURIComponent (stringify data)

/-- `bufferToDataUrl`. -/
def bufferToDataUrl (buffer : List Nat) : Str :=
  str "data:application/octet-stream;base64," ++ btoa buffer

/-- The eleven supported typed-array constructors (`TypedArrayType`). -/
inductive TAType where
  | bigInt64 | bigUint64 | float32 | float64 | int16 | int32 | int8
  | uint16 | uint32 | uint8 | uint8Clamped
deriving DecidableEq

/-- The constructor's global name. -/
def taTypeName : TAType → Str
  | .bigInt64 => str "BigInt64Array"
  | .bigUint64 => str "BigUint64Array"
  | .float32 => str "Float32Array"
  | .float64 => str "Float64Array"
  | .int16 => str "Int16Array"
  | .int32 => str "Int32Array"
  | .int8 => str "Int8Array"
  | .uint16 => str "Uint16Array"
  | .uint32 => str "Uint32Array"
  | .uint8 => str "Uint8Array"
  | .uint8Clamped => str "Uint8ClampedArray"

/-- `globalThis[arrayType]` restricted to the supported names. -/
def parseTAType (s : Str) : Option TAType :=
  if s = str "BigInt64Array" then some .bigInt64
  else if s = str "BigUint64Array" then some .bigUint64
  else if s = str "Float32Array" then some .float32
  else if s = str "Float64Array" then some .float64
  else if s = str "Int16Array" then some .int16
  else if s = str "Int32Array" then some .int32
  else if s = str "Int8Array" then some .int8
  else if s = str "Uint16Array" then some .uint16
  else if s = str "Uint32Array" then some .uint32
  else if s = str "Uint8Array" then some .uint8
  else if s = str "Uint8ClampedArray" then some .uint8Clamped
  else none

/-- `BYTES_PER_ELEMENT`. -/
def elemSize : TAType → Nat
  | .bigInt64 => 8
  | .bigUint64 => 8
  | .float32 => 4
  | .float64 => 8
  | .int16 => 2
  | .int32 => 4
  | .int8 => 1
  | .uint16 => 2
  | .uint32 => 4
  | .uint8 => 1
  | .uint8Clamped => 1

/-- A typed array viewing its entire underlying buffer: the constructor
tag and the buffer bytes. -/
structure TypedArr where
  ty : TAType
  bytes : List Nat
deriving DecidableEq

/-- `typedArrayToDataUrl`: `array.buffer` is the whole underlying
buffer of the view. -/
def typedArrayToDataUrl (a : TypedArr) : Str :=
  str "data:" ++ MIME_TYPED_ARR ++ taTypeName a.ty ++ str ";base64," ++
    btoa a.bytes

/-- `isUrlDataUrl`. -/
def isUrlDataUrl (s : Str) : Bool := getMimeType s = MIME_URI

/-- `dataUrlToUrl`: `null` when the media kind is not `text/x-uri`,
else `decodeURIComponent(dataUrl.split(",")[1])`.  With no comma,
`split(",")[1]` is `undefined`, which `decodeURIComponent` coerces to
the string `"undefined"`. -/
def uriOf : Option Str → Except JsErr (Option Str)
  | none => .error .uriError
  | some u => .ok (some u)

def dataUrlToUrl (s : Str) : Except JsErr (Option Str) :=
  if isUrlDataUrl s then
    uriOf (decodeURIComponent ((splitOnChar ',' s).getD 1 (str "undefined")))
  else .ok none

/-- `urlToDataUrl`: without fetch options, the uri-reference token;
with fetch options, fetch the content and return
`bufferToDataUrl(buffer)` (the response `Content-Type` is not read). -/
def urlFetched : Option FetchResp → Except JsErr Str
  | none => .error .networkError
  | some resp =>
    if resp.ok then .ok (bufferToDataUrl resp.body)
    else .error .fetchFailed

def urlToDataUrl (φ : Fetcher) : Str → Option FetchOpts →
    Except JsErr Str
  | url, some o => urlFetched (φ url (some o))
  | url, none =>
    .ok (str "data:text/x-uri;charset=utf-8," ++ encodeURIComponent url)

/-- `dataUrlToBuffer`. -/
def respPart : Option FetchResp → Except JsErr (List Nat)
  | none => .error .networkError
  | some resp => if resp.ok then .ok resp.body else .error .fetchFailed

def fetchPart (φ : Fetcher) (fo : Option FetchOpts) :
    Except JsErr (Option Str) → Except JsErr (List Nat)
  | .error e => .error e
  | .ok none => .error .invalidUrlDataUrl
  | .ok (some url) => respPart (φ url fo)

def base64Part : Option (List Nat) → Except JsErr (List Nat)
  | none => .error .invalidB64
  | some bytes => .ok bytes

def percentPart : Option Str → Except JsErr (List Nat)
  | none => .error .uriError
  | some decoded => .ok (utf8Encode decoded)

def dataUrlToBuffer (φ : Fetcher) (s : Str) (fo : Option FetchOpts) :
    Except JsErr (List Nat) :=
  if isUrlDataUrl s then fetchPart φ fo (dataUrlToUrl s)
  else
    if (splitOnChar ',' s).length = 1 then .error .invalidDataUrlFormat
    else
      let header := s.takeWhile (fun c => ¬ c = ',')
      let data := (s.dropWhile (fun c => ¬ c = ',')).tail
      if containsSub (str ";base64") header then
        if data = [] then .ok []
        else base64Part (atob data)
      else percentPart (if data = [] then some [] else decodeURIComponent data)

/-- `dataUrlToText`: decode the buffer as UTF-8. -/
def dataUrlToText (φ : Fetcher) (s : Str) (fo : Option FetchOpts) :
    Except JsErr Str :=
  (dataUrlToBuffer φ s fo).map textDecode

/-- `dataUrlToJson`. -/
def jsonOf : Option Json → Except JsErr Json
  | none => .error .jsonSyntaxError
  | some j => .ok j

def dataUrlToJson (φ : Fetcher) (s : Str) (fo : Option FetchOpts) :
    Except JsErr Json :=
  (dataUrlToText φ s fo).bind fun t => jsonOf (jsonParse t)

/-- `dataUrlToTypedArray`: parameter check, then buffer, then
constructor lookup, then the view over the whole buffer (`RangeError`
when the length is not a multiple of the element size). -/
def taOf (buf : List Nat) : Option TAType → Except JsErr TypedArr
  | none => .error .badTypedArrayType
  | some ty =>
    if buf.length % elemSize ty = 0 then .ok ⟨ty, buf⟩
    else .error .rangeError

def typedOf (φ : Fetcher) (s : Str) (fo : Option FetchOpts) :
    Option Str → Except JsErr TypedArr
  | none => .error .missingTypeParam
  | some tname =>
    (dataUrlToBuffer φ s fo).bind fun buf => taOf buf (parseTAType tname)

def dataUrlToTypedArray (φ : Fetcher) (s : Str) (fo : Option FetchOpts) :
    Except JsErr TypedArr :=
  typedOf φ s fo (getParam (getParameters s) (str "type"))

/-! ### The engine (`dereferenceDataRefs`) and reference predicates

JavaScript runtime values reaching the engine are modelled by `JsValue`
(with mutual list/record types so that all recursion is structural).
Asynchrony is modelled explicitly: every token found by the discovery
pass yields one task; `sched` lists the task indices in settlement
order, and `Promise.all` rejects with the error of the first task to
fail in that order. -/

mutual
inductive JsValue where
  | vnull
  | vundef
  | vbool (b : Bool)
  | vnum (n : Int)
  | vstr (s : Str)
  | vbuf (bytes : List Nat)
  | vtyped (a : TypedArr)
  | varr (xs : JsArr)
  | vobj (kvs : JsObj)
inductive JsArr where
  | nil
  | cons (x : JsValue) (t : JsArr)
inductive JsObj where
  | nil
  | cons (k : Str) (v : JsValue) (t : JsObj)
end

deriving instance DecidableEq for JsValue, JsArr, JsObj

mutual
/-- Embed a parsed JSON value into the runtime-value model. -/
def jsonToJsValue : Json → JsValue
  | .null => .vnull
  | .bool b => .vbool b
  | .num n => .vnum n
  | .str s => .vstr s
  | .arr xs => .varr (jsonListToJsArr xs)
  | .obj kvs => .vobj (jsonMembersToJsObj kvs)
def jsonListToJsArr : JsonList → JsArr
  | .nil => .nil
  | .cons x t => .cons (jsonToJsValue x) (jsonListToJsArr t)
def jsonMembersToJsObj : JsonMembers → JsObj
  | .nil => .nil
  | .cons k v t => .cons k (jsonToJsValue v) (jsonMembersToJsObj t)
end

/-- One step of a path: an array index or an object key. -/
inductive PathKey where
  | idx (n : Nat)
  | fld (k : Str)
deriving DecidableEq

/-- A path from the root of a tree. -/
def Path := List PathKey

/-- `dereferenceDataUrl`: dispatch on the media kind (JSON, text,
octet-stream with a `type` parameter, anything else). -/
def dereferenceDataUrl (φ : Fetcher) (fo : Option FetchOpts) (s : Str) :
    Except JsErr JsValue :=
  let mime := getMimeType s
  if mime = MIME_JSON then (dataUrlToJson φ s fo).map jsonToJsValue
  else if mime = MIME_TEXT then (dataUrlToText φ s fo).map JsValue.vstr
  else if mime = MIME_OCTET ∧
      (getParam (getParameters s) (str "type")).isSome then
    (dataUrlToTypedArray φ s fo).map JsValue.vtyped
  else (dataUrlToBuffer φ s fo).map JsValue.vbuf

mutual
/-- `collectPromises`: depth-first discovery of token strings,
recording the path to each.  `ArrayBuffer` and typed-array nodes are
objects whose enumerable properties hold no strings, so nothing is
collected beneath them. -/
def collectV : JsValue → List PathKey → List (List PathKey × Str)
  | .vstr s, p => if isDataUrlStr s then [(p, s)] else []
  | .varr xs, p => collectA xs p 0
  | .vobj kvs, p => collectO kvs p
  | _, _ => []
def collectA : JsArr → List PathKey → Nat → List (List PathKey × Str)
  | .nil, _, _ => []
  | .cons x t, p, i => collectV x (p ++ [.idx i]) ++ collectA t p (i + 1)
def collectO : JsObj → List PathKey → List (List PathKey × Str)
  | .nil, _ => []
  | .cons k v t, p => collectV v (p ++ [.fld k]) ++ collectO t p
end

/-- The error of the first task (in settlement order) that failed. -/
def firstErr (rs : List (Except JsErr JsValue)) :
    List Nat → Option JsErr
  | [] => none
  | i :: t =>
    match rs.getD i (.ok .vnull) with
    | .error e => some e
    | .ok _ => firstErr rs t

/-- Extract all fulfillment values, or `none` if any task failed. -/
def seqOk : List (Except JsErr JsValue) → Option (List JsValue)
  | [] => some []
  | .ok v :: t => (seqOk t).map (v :: ·)
  | .error _ :: _ => none

/-- `Promise.all`: rejects with the error of the first task to fail in
settlement order; fulfils with the values in task order otherwise.
(The fallback arm is unreachable whenever `sched` covers every index.) -/
def promiseAll (rs : List (Except JsErr JsValue)) (sched : List Nat) :
    Except JsErr (List JsValue) :=
  match firstErr rs sched with
  | some e => .error e
  | none =>
    match seqOk rs with
    | some vs => .ok vs
    | none => .error .networkError

/-- Array indexing, as read by the rebuild pass. -/
def getIdx : JsArr → Nat → Option JsValue
  | .nil, _ => none
  | .cons x _, 0 => some x
  | .cons _ t, n + 1 => getIdx t n

/-- In-place array element update. -/
def setIdx : JsArr → Nat → JsValue → Option JsArr
  | .nil, _, _ => none
  | .cons _ t, 0, r => some (.cons r t)
  | .cons x t, n + 1, r => (setIdx t n r).map (.cons x ·)

/-- Object property read (first occurrence; JavaScript objects have
unique keys). -/
def getFld : JsObj → Str → Option JsValue
  | .nil, _ => none
  | .cons k v t, key => if k = key then some v else getFld t key

/-- In-place object property update (first occurrence). -/
def setFld : JsObj → Str → JsValue → Option JsObj
  | .nil, _, _ => none
  | .cons k v t, key, r =>
    if k = key then some (.cons k r t)
    else (setFld t key r).map (.cons k v ·)

/-- `current[path[i]]` during the rebuild descent. -/
def getChild : JsValue → PathKey → Option JsValue
  | .varr xs, .idx i => getIdx xs i
  | .vobj kvs, .fld k => getFld kvs k
  | _, _ => none

/-- `current[lastKey] = result`: fails (strict-mode `TypeError`) on
non-container nodes. -/
def setChild : JsValue → PathKey → JsValue → Option JsValue
  | .varr xs, .idx i, r => (setIdx xs i r).map JsValue.varr
  | .vobj kvs, .fld k, r => (setFld kvs k r).map JsValue.vobj
  | _, _, _ => none

/-- One rebuild assignment: descend along all path components but the
last, then assign at the last.  An empty path means the token was the
root itself: the assignment target is `draft[undefined]` on a primitive
string, a strict-mode `TypeError`. -/
def setPath : JsValue → List PathKey → JsValue → Option JsValue
  | _, [], _ => none
  | v, [k], r => setChild v k r
  | v, k :: k2 :: rest, r =>
    (getChild v k).bind fun c =>
      (setPath c (k2 :: rest) r).bind fun c2 => setChild v k c2

/-- The rebuild pass: apply every recorded assignment in task order. -/
def applyPaths : JsValue → List (List PathKey × JsValue) → Option JsValue
  | v, [] => some v
  | v, (p, r) :: t => (setPath v p r).bind fun v2 => applyPaths v2 t

/-- Outcome of the rebuild pass: a failed assignment is a thrown
`TypeError`. -/
def applyResult : Option JsValue → Except JsErr JsValue
  | none => .error .typeError
  | some out => .ok out

/-- The continuation after `Promise.all`: propagate its rejection, else
run the rebuild pass. -/
def afterAll (json : JsValue) (paths : List (List PathKey)) :
    Except JsErr (List JsValue) → Except JsErr JsValue
  | .error e => .error e
  | .ok results => applyResult (applyPaths json (paths.zip results))

/-- `dereferenceDataRefs`: discovery pass, early return on zero tokens,
`Promise.all` over the per-token tasks, rebuild pass. -/
def dereferenceDataRefs (φ : Fetcher) (fo : Option FetchOpts)
    (json : JsValue) (sched : List Nat) : Except JsErr JsValue :=
  let promises := collectV json []
  if promises = [] then .ok json
  else
    afterAll json (promises.map Prod.fst)
      (promiseAll
        (promises.map (fun pr => dereferenceDataUrl φ fo pr.2)) sched)

/-- The five legacy reference kinds (`DataRefTypesSet`). -/
def DataRefTypeNames : List Str :=
  [str "base64", str "url", str "utf8", str "json", str "key"]

/-- `isDataRef` from `src/dataref.ts`: the `type`-discriminated legacy
shape — a non-null object whose truthy `type` is one of the five kinds
and whose `value` is not `undefined`. -/
def isDataRefLegacy (value : JsValue) : Bool :=
  match value with
  | .vobj kvs =>
    (match getFld kvs (str "type") with
     | some (.vstr t) => decide (t ∈ DataRefTypeNames)
     | _ => false) &&
    (match getFld kvs (str "value") with
     | some x => decide (¬ x = .vundef)
     | none => false)
  | _ => false

/-- Modelled from the spec: the V1 is-a-reference predicate accepts a
structured record whose `ref` discriminator is one of the five legacy
kinds and which carries a `value`; the V1 module itself is absent from
`src/`, so this follows the spec's description of the `ref`-named
historical shape. -/
def isDataRefV1 (value : JsValue) : Bool :=
  match value with
  | .vobj kvs =>
    (match getFld kvs (str "ref") with
     | some (.vstr t) => decide (t ∈ DataRefTypeNames)
     | _ => false) &&
    (match getFld kvs (str "value") with
     | some x => decide (¬ x = .vundef)
     | none => false)
  | _ => false

/-- `isDataRef` from `src/v2/index.ts`: a token string, or a V1
reference. -/
def isDataRefV2 (value : JsValue) : Bool :=
  (match value with
   | .vstr s => isDataUrlStr s
   | _ => false) || isDataRefV1 value

/-! ### Specification of the replacement pass

`replV d` is the functional description of what a successful engine run
produces: every token string replaced by its decoded value `d s`, every
other node rebuilt unchanged.  The correspondence with
`dereferenceDataRefs` is proved below. -/

mutual
/-- Deep replacement of token strings by their decoded values. -/
def replV (d : Str → JsValue) : JsValue → JsValue
  | .vstr s => if isDataUrlStr s then d s else .vstr s
  | .varr xs => .varr (replA d xs)
  | .vobj kvs => .vobj (replO d kvs)
  | v => v
/-- `replV` on array elements. -/
def replA (d : Str → JsValue) : JsArr → JsArr
  | .nil => .nil
  | .cons x t => .cons (replV d x) (replA d t)
/-- `replV` on object member values (keys unchanged). -/
def replO (d : Str → JsValue) : JsObj → JsObj
  | .nil => .nil
  | .cons k v t => .cons k (replV d v) (replO d t)
end

/-- The keys of an object node. -/
def objKeys : JsObj → List Str
  | .nil => []
  | .cons k _ t => k :: objKeys t

mutual
/-- Well-formedness of a runtime tree: every object node has distinct
keys, as JavaScript objects do. -/
def wfV : JsValue → Bool
  | .varr xs => wfA xs
  | .vobj kvs => decide (objKeys kvs).Nodup && wfO kvs
  | _ => true
/-- `wfV` on array elements. -/
def wfA : JsArr → Bool
  | .nil => true
  | .cons x t => wfV x && wfA t
/-- `wfV` on object member values. -/
def wfO : JsObj → Bool
  | .nil => true
  | .cons _ v t => wfV v && wfO t
end

/-- Is the node itself a token string? -/
def isTokenStr : JsValue → Bool
  | .vstr s => isDataUrlStr s
  | _ => false

/-- Array concatenation. -/
def arrApp : JsArr → JsArr → JsArr
  | .nil, ys => ys
  | .cons x t, ys => .cons x (arrApp t ys)

/-- Array length. -/
def arrLen : JsArr → Nat
  | .nil => 0
  | .cons _ t => arrLen t + 1

/-- Object concatenation. -/
def objApp : JsObj → JsObj → JsObj
  | .nil, ys => ys
  | .cons k v t, ys => .cons k v (objApp t ys)

/-- Read the node at a path. -/
def getPath : JsValue → List PathKey → Option JsValue
  | v, [] => some v
  | v, k :: p => (getChild v k).bind (getPath · p)

/-- The rebuild pass expressed relative to a subtree: an empty relative
path replaces the subtree itself.  Equal to `applyPaths` on batches
whose paths are all non-empty. -/
def applyTop : JsValue → List (List PathKey × JsValue) → Option JsValue
  | v, [] => some v
  | _, ([], r) :: t => applyTop r t
  | v, (k :: p, r) :: t => (setPath v (k :: p) r).bind (applyTop · t)

/-- Pair every collected token with its decoded value. -/
def mapDecode (d : Str → JsValue) (l : List (List PathKey × Str)) :
    List (List PathKey × JsValue) :=
  l.map (fun pr => (pr.1, d pr.2))

/-- The decoded value of a token under a given oracle (default value at
tokens whose decoding fails). -/
def decodeD (φ : Fetcher) (fo : Option FetchOpts) (s : Str) : JsValue :=
  match dereferenceDataUrl φ fo s with
  | .ok v => v
  | .error _ => .vnull

theorem setIdx_getIdx_self : ∀ (xs : JsArr) (i : Nat) (c : JsValue),
    getIdx xs i = some c → setIdx xs i c = some xs
  | .nil, _, _, h => by simp [getIdx] at h
  | .cons x t, 0, c, h => by
    simp [getIdx] at h
    simp [setIdx, h]
  | .cons x t, i + 1, c, h => by
    simp only [getIdx] at h
    simp [setIdx, setIdx_getIdx_self t i c h]

theorem setIdx_spec : ∀ (xs : JsArr) (i : Nat) (c r : JsValue),
    getIdx xs i = some c →
    ∃ ys, setIdx xs i r = some ys ∧ getIdx ys i = some r ∧
      ∀ x, setIdx ys i x = setIdx xs i x
  | .nil, _, _, _, h => by simp [getIdx] at h
  | .cons x t, 0, c, r, h =>
    ⟨.cons r t, rfl, rfl, fun x => rfl⟩
  | .cons x t, i + 1, c, r, h => by
    simp only [getIdx] at h
    obtain ⟨ys, h1, h2, h3⟩ := setIdx_spec t i c r h
    exact ⟨.cons x ys, by simp [setIdx, h1], by simpa [getIdx] using h2,
      fun z => by simp [setIdx, h3]⟩

theorem setFld_getFld_self : ∀ (kvs : JsObj) (k : Str) (c : JsValue),
    getFld kvs k = some c → setFld kvs k c = some kvs
  | .nil, _, _, h => by simp [getFld] at h
  | .cons k0 v t, k, c, h => by
    by_cases hk : k0 = k
    · simp [getFld, hk] at h
      simp [setFld, hk, h]
    · simp only [getFld, if_neg hk] at h
      simp [setFld, if_neg hk, setFld_getFld_self t k c h]

theorem setFld_spec : ∀ (kvs : JsObj) (k : Str) (c r : JsValue),
    getFld kvs k = some c →
    ∃ ys, setFld kvs k r = some ys ∧ getFld ys k = some r ∧
      ∀ x, setFld ys k x = setFld kvs k x
  | .nil, _, _, _, h => by simp [getFld] at h
  | .cons k0 v t, k, c, r, h => by
    by_cases hk : k0 = k
    · exact ⟨.cons k0 r t, by simp [setFld, hk],
        by simp [getFld, hk], fun x => by simp [setFld, hk]⟩
    · simp only [getFld, if_neg hk] at h
      obtain ⟨ys, h1, h2, h3⟩ := setFld_spec t k c r h
      exact ⟨.cons k0 v ys, by simp [setFld, if_neg hk, h1],
        by simp [getFld, if_neg hk, h2],
        fun z => by simp [setFld, if_neg hk, h3]⟩

theorem setChild_getChild_self {v : JsValue} {k : PathKey} {c : JsValue}
    (h : getChild v k = some c) : setChild v k c = some v := by
  cases v with
  | varr xs =>
    cases k with
    | idx i =>
      simp only [getChild] at h
      simp [setChild, setIdx_getIdx_self xs i c h]
    | fld key => exact absurd h (by simp [getChild])
  | vobj kvs =>
    cases k with
    | idx i => exact absurd h (by simp [getChild])
    | fld key =>
      simp only [getChild] at h
      simp [setChild, setFld_getFld_self kvs key c h]
  | vnull => exact absurd h (by cases k <;> simp [getChild])
  | vundef => exact absurd h (by cases k <;> simp [getChild])
  | vbool b => exact absurd h (by cases k <;> simp [getChild])
  | vnum n => exact absurd h (by cases k <;> simp [getChild])
  | vstr s => exact absurd h (by cases k <;> simp [getChild])
  | vbuf l => exact absurd h (by cases k <;> simp [getChild])
  | vtyped a => exact absurd h (by cases k <;> simp [getChild])

theorem setChild_spec {v : JsValue} {k : PathKey} {c : JsValue}
    (r : JsValue) (h : getChild v k = some c) :
    ∃ v2, setChild v k r = some v2 ∧ getChild v2 k = some r ∧
      ∀ x, setChild v2 k x = setChild v k x := by
  cases v with
  | varr xs =>
    cases k with
    | idx i =>
      simp only [getChild] at h
      obtain ⟨ys, h1, h2, h3⟩ := setIdx_spec xs i c r h
      refine ⟨.varr ys, ?_, ?_, ?_⟩
      · simp [setChild, h1]
      · simpa [getChild] using h2
      · intro x
        simp [setChild, h3]
    | fld key => exact absurd h (by simp [getChild])
  | vobj kvs =>
    cases k with
    | idx i => exact absurd h (by simp [getChild])
    | fld key =>
      simp only [getChild] at h
      obtain ⟨ys, h1, h2, h3⟩ := setFld_spec kvs key c r h
      refine ⟨.vobj ys, ?_, ?_, ?_⟩
      · simp [setChild, h1]
      · simpa [getChild] using h2
      · intro x
        simp [setChild, h3]
  | vnull => exact absurd h (by cases k <;> simp [getChild])
  | vundef => exact absurd h (by cases k <;> simp [getChild])
  | vbool b => exact absurd h (by cases k <;> simp [getChild])
  | vnum n => exact absurd h (by cases k <;> simp [getChild])
  | vstr s => exact absurd h (by cases k <;> simp [getChild])
  | vbuf l => exact absurd h (by cases k <;> simp [getChild])
  | vtyped a => exact absurd h (by cases k <;> simp [getChild])

theorem applyPaths_append : ∀ (B1 B2 : List (List PathKey × JsValue))
    (v : JsValue), applyPaths v (B1 ++ B2) =
      (applyPaths v B1).bind (fun v2 => applyPaths v2 B2)
  | [], B2, v => by simp [applyPaths]
  | (p, r) :: t, B2, v => by
    simp only [List.cons_append, applyPaths]
    cases setPath v p r with
    | none => simp
    | some v2 => simp [applyPaths_append t B2 v2]

theorem applyPaths_under : ∀ (B : List (List PathKey × JsValue))
    (v : JsValue) (k : PathKey) (c c2 : JsValue),
    getChild v k = some c → applyTop c B = some c2 →
    applyPaths v (B.map (fun pr => (k :: pr.1, pr.2))) = setChild v k c2
  | [], v, k, c, c2, hg, ha => by
    simp only [applyTop] at ha
    injection ha with ha
    subst ha
    simp [applyPaths, setChild_getChild_self hg]
  | ([], r) :: t, v, k, c, c2, hg, ha => by
    simp only [applyTop] at ha
    obtain ⟨v2, h1, h2, h3⟩ := setChild_spec r hg
    simp only [List.map_cons, applyPaths, setPath, h1, Option.some_bind]
    rw [applyPaths_under t v2 k r c2 h2 ha, h3]
  | (k2 :: p, r) :: t, v, k, c, c2, hg, ha => by
    simp only [applyTop] at ha
    cases hsp : setPath c (k2 :: p) r with
    | none => rw [hsp] at ha; simp at ha
    | some cmid =>
      rw [hsp] at ha
      simp only [Option.some_bind] at ha
      obtain ⟨v2, h1, h2, h3⟩ := setChild_spec cmid hg
      simp only [List.map_cons, applyPaths, setPath, hg, Option.some_bind,
        hsp, h1]
      rw [applyPaths_under t v2 k cmid c2 h2 ha, h3]

mutual
theorem collectV_shift : ∀ (v : JsValue) (p : List PathKey),
    collectV v p = (collectV v []).map (fun pr => (p ++ pr.1, pr.2))
  | .vnull, p => by simp [collectV]
  | .vundef, p => by simp [collectV]
  | .vbool b, p => by simp [collectV]
  | .vnum n, p => by simp [collectV]
  | .vbuf l, p => by simp [collectV]
  | .vtyped a, p => by simp [collectV]
  | .vstr s, p => by
    by_cases h : isDataUrlStr s = true <;> simp [collectV, h]
  | .varr xs, p => by
    simp only [collectV]
    exact collectA_shift xs p 0
  | .vobj kvs, p => by
    simp only [collectV]
    exact collectO_shift kvs p
theorem collectA_shift : ∀ (xs : JsArr) (p : List PathKey) (i : Nat),
    collectA xs p i = (collectA xs [] i).map (fun pr => (p ++ pr.1, pr.2))
  | .nil, p, i => by simp [collectA]
  | .cons x t, p, i => by
    simp only [collectA, List.map_append]
    rw [collectA_shift t p (i + 1), collectV_shift x (p ++ [PathKey.idx i]),
      collectV_shift x ([] ++ [PathKey.idx i])]
    simp [List.map_map, Function.comp_def, List.append_assoc]
theorem collectO_shift : ∀ (kvs : JsObj) (p : List PathKey),
    collectO kvs p = (collectO kvs []).map (fun pr => (p ++ pr.1, pr.2))
  | .nil, p => by simp [collectO]
  | .cons k v t, p => by
    simp only [collectO, List.map_append]
    rw [collectO_shift t p, collectV_shift v (p ++ [PathKey.fld k]),
      collectV_shift v ([] ++ [PathKey.fld k])]
    simp [List.map_map, Function.comp_def, List.append_assoc]
end

theorem collectA_ne_nil_paths (xs : JsArr) (i : Nat) :
    ∀ pr ∈ collectA xs [] i, pr.1 ≠ [] := by
  intro pr hm
  cases xs with
  | nil => simp [collectA] at hm
  | cons x t =>
    simp only [collectA, List.mem_append] at hm
    rcases hm with hm | hm
    · rw [collectV_shift x ([] ++ [PathKey.idx i])] at hm
      simp only [List.mem_map, List.nil_append] at hm
      obtain ⟨a, _, ha⟩ := hm
      rw [← ha]
      simp
    · exact collectA_ne_nil_paths t (i + 1) pr hm

theorem collectO_ne_nil_paths (kvs : JsObj) :
    ∀ pr ∈ collectO kvs [], pr.1 ≠ [] := by
  intro pr hm
  cases kvs with
  | nil => simp [collectO] at hm
  | cons k v t =>
    simp only [collectO, List.mem_append] at hm
    rcases hm with hm | hm
    · rw [collectV_shift v ([] ++ [PathKey.fld k])] at hm
      simp only [List.mem_map, List.nil_append] at hm
      obtain ⟨a, _, ha⟩ := hm
      rw [← ha]
      simp
    · exact collectO_ne_nil_paths t pr hm

theorem applyPaths_eq_applyTop : ∀ (B : List (List PathKey × JsValue))
    (v : JsValue), (∀ pr ∈ B, pr.1 ≠ []) →
    applyPaths v B = applyTop v B
  | [], v, _ => by simp [applyPaths, applyTop]
  | (p, r) :: t, v, h => by
    cases p with
    | nil => exact absurd rfl (h (([] : List PathKey), r) (by simp))
    | cons k p2 =>
      simp only [applyPaths, applyTop]
      cases setPath v (k :: p2) r with
      | none => simp
      | some v2 =>
        simp only [Option.some_bind]
        exact applyPaths_eq_applyTop t v2 (fun pr hm => h pr (by simp [hm]))

theorem arrApp_assoc : ∀ (a b c : JsArr),
    arrApp (arrApp a b) c = arrApp a (arrApp b c)
  | .nil, b, c => rfl
  | .cons x t, b, c => by simp [arrApp, arrApp_assoc t b c]

theorem arrLen_app_one : ∀ (a : JsArr) (x : JsValue),
    arrLen (arrApp a (.cons x .nil)) = arrLen a + 1
  | .nil, x => rfl
  | .cons y t, x => by simp [arrApp, arrLen, arrLen_app_one t x]

theorem getIdx_app : ∀ (a ys : JsArr) (j : Nat),
    getIdx (arrApp a ys) (arrLen a + j) = getIdx ys j
  | .nil, ys, j => by simp [arrApp, arrLen]
  | .cons x t, ys, j => by
    have : arrLen (JsArr.cons x t) + j = (arrLen t + j) + 1 := by
      simp [arrLen]
      omega
    rw [this]
    simp [arrApp, getIdx, getIdx_app t ys j]

theorem setIdx_app : ∀ (a ys : JsArr) (j : Nat) (r : JsValue),
    setIdx (arrApp a ys) (arrLen a + j) r =
      (setIdx ys j r).map (arrApp a)
  | .nil, ys, j, r => by
    simp only [arrApp, arrLen, Nat.zero_add]
    cases setIdx ys j r <;> simp [arrApp]
  | .cons x t, ys, j, r => by
    have : arrLen (JsArr.cons x t) + j = (arrLen t + j) + 1 := by
      simp [arrLen]
      omega
    rw [this]
    simp only [arrApp, setIdx, setIdx_app t ys j r]
    cases setIdx ys j r <;> simp [arrApp]

theorem objKeys_app : ∀ (a b : JsObj),
    objKeys (objApp a b) = objKeys a ++ objKeys b
  | .nil, b => rfl
  | .cons k v t, b => by simp [objApp, objKeys, objKeys_app t b]

theorem objApp_assoc : ∀ (a b c : JsObj),
    objApp (objApp a b) c = objApp a (objApp b c)
  | .nil, b, c => rfl
  | .cons k v t, b, c => by simp [objApp, objApp_assoc t b c]

theorem getFld_app_not_mem : ∀ (a ys : JsObj) (k : Str),
    k ∉ objKeys a → getFld (objApp a ys) k = getFld ys k
  | .nil, ys, k, _ => rfl
  | .cons k0 v t, ys, k, h => by
    simp only [objKeys, List.mem_cons, not_or] at h
    simp [objApp, getFld, if_neg (fun he : k0 = k => h.1 he.symm),
      getFld_app_not_mem t ys k h.2]

theorem setFld_app_not_mem : ∀ (a ys : JsObj) (k : Str) (r : JsValue),
    k ∉ objKeys a →
    setFld (objApp a ys) k r = (setFld ys k r).map (objApp a)
  | .nil, ys, k, r, _ => by
    simp only [objApp]
    cases setFld ys k r <;> simp [objApp]
  | .cons k0 v t, ys, k, r, h => by
    simp only [objKeys, List.mem_cons, not_or] at h
    simp only [objApp, setFld, if_neg (fun he : k0 = k => h.1 he.symm),
      setFld_app_not_mem t ys k r h.2]
    cases setFld ys k r <;> simp [objApp]

theorem mapDecode_append (d : Str → JsValue)
    (a b : List (List PathKey × Str)) :
    mapDecode d (a ++ b) = mapDecode d a ++ mapDecode d b := by
  simp [mapDecode]

theorem mapDecode_shift (d : Str → JsValue) (k : PathKey)
    (B : List (List PathKey × Str)) :
    mapDecode d (B.map (fun pr => (k :: pr.1, pr.2))) =
      (mapDecode d B).map (fun pr => (k :: pr.1, pr.2)) := by
  simp [mapDecode, List.map_map, Function.comp_def]

theorem mapDecode_ne_nil_paths {d : Str → JsValue}
    {B : List (List PathKey × Str)} (h : ∀ pr ∈ B, pr.1 ≠ []) :
    ∀ pr ∈ mapDecode d B, pr.1 ≠ [] := by
  intro pr hm
  simp only [mapDecode, List.mem_map] at hm
  obtain ⟨a, ha, he⟩ := hm
  rw [← he]
  exact h a ha

mutual
theorem replaceV (d : Str → JsValue) : ∀ v : JsValue, wfV v = true →
    applyTop v (mapDecode d (collectV v [])) = some (replV d v)
  | .vnull, _ => by simp [collectV, mapDecode, applyTop, replV]
  | .vundef, _ => by simp [collectV, mapDecode, applyTop, replV]
  | .vbool b, _ => by simp [collectV, mapDecode, applyTop, replV]
  | .vnum n, _ => by simp [collectV, mapDecode, applyTop, replV]
  | .vbuf l, _ => by simp [collectV, mapDecode, applyTop, replV]
  | .vtyped a, _ => by simp [collectV, mapDecode, applyTop, replV]
  | .vstr s, _ => by
    by_cases h : isDataUrlStr s = true <;>
      simp [collectV, mapDecode, applyTop, replV, h]
  | .varr xs, hwf => by
    simp only [collectV, replV]
    rw [← applyPaths_eq_applyTop _ _
      (mapDecode_ne_nil_paths (collectA_ne_nil_paths xs 0))]
    have h := replaceA d xs .nil (by simpa [wfV] using hwf)
    simpa [arrApp, arrLen] using h
  | .vobj kvs, hwf => by
    simp only [collectV, replV]
    rw [← applyPaths_eq_applyTop _ _
      (mapDecode_ne_nil_paths (collectO_ne_nil_paths kvs))]
    have hwf2 := hwf
    simp only [wfV, Bool.and_eq_true, decide_eq_true_eq] at hwf2
    have h := replaceO d kvs .nil hwf2.2 (by simpa [objKeys] using hwf2.1)
    simpa [objApp] using h
theorem replaceA (d : Str → JsValue) : ∀ (xs : JsArr) (pre : JsArr),
    wfA xs = true →
    applyPaths (.varr (arrApp pre xs))
        (mapDecode d (collectA xs [] (arrLen pre))) =
      some (.varr (arrApp pre (replA d xs)))
  | .nil, pre, _ => by simp [collectA, mapDecode, applyPaths, replA]
  | .cons x t, pre, hwf => by
    have hwx : wfV x = true := by
      simp only [wfA, Bool.and_eq_true] at hwf
      exact hwf.1
    have hwt : wfA t = true := by
      simp only [wfA, Bool.and_eq_true] at hwf
      exact hwf.2
    simp only [collectA]
    rw [collectV_shift x ([] ++ [PathKey.idx (arrLen pre)])]
    simp only [List.nil_append, List.singleton_append]
    rw [mapDecode_append, applyPaths_append, mapDecode_shift]
    have hg : getChild (JsValue.varr (arrApp pre (.cons x t)))
        (.idx (arrLen pre)) = some x := by
      simp only [getChild]
      have h0 := getIdx_app pre (.cons x t) 0
      simpa [getIdx] using h0
    rw [applyPaths_under (mapDecode d (collectV x [])) _
      (.idx (arrLen pre)) x (replV d x) hg (replaceV d x hwx)]
    have hset : setChild (JsValue.varr (arrApp pre (.cons x t)))
        (.idx (arrLen pre)) (replV d x) =
        some (.varr (arrApp pre (.cons (replV d x) t))) := by
      simp only [setChild]
      have h0 := setIdx_app pre (.cons x t) 0 (replV d x)
      simp only [Nat.add_zero] at h0
      rw [h0]
      simp [setIdx]
    rw [hset]
    simp only [Option.some_bind]
    have harr : arrApp pre (JsArr.cons (replV d x) t) =
        arrApp (arrApp pre (.cons (replV d x) .nil)) t := by
      rw [arrApp_assoc]
      rfl
    have hlen : arrLen pre + 1 =
        arrLen (arrApp pre (.cons (replV d x) .nil)) :=
      (arrLen_app_one pre _).symm
    rw [harr, hlen,
      replaceA d t (arrApp pre (.cons (replV d x) .nil)) hwt,
      arrApp_assoc]
    rfl
theorem replaceO (d : Str → JsValue) : ∀ (kvs : JsObj) (pre : JsObj),
    wfO kvs = true → (objKeys pre ++ objKeys kvs).Nodup →
    applyPaths (.vobj (objApp pre kvs))
        (mapDecode d (collectO kvs [])) =
      some (.vobj (objApp pre (replO d kvs)))
  | .nil, pre, _, _ => by simp [collectO, mapDecode, applyPaths, replO]
  | .cons k v t, pre, hwf, hnd => by
    have hwv : wfV v = true := by
      simp only [wfO, Bool.and_eq_true] at hwf
      exact hwf.1
    have hwt : wfO t = true := by
      simp only [wfO, Bool.and_eq_true] at hwf
      exact hwf.2
    have hkpre : k ∉ objKeys pre := by
      have hd := List.disjoint_of_nodup_append hnd
      intro hmem
      exact absurd (by simp [objKeys] : k ∈ objKeys (JsObj.cons k v t))
        (hd hmem)
    simp only [collectO]
    rw [collectV_shift v ([] ++ [PathKey.fld k])]
    simp only [List.nil_append, List.singleton_append]
    rw [mapDecode_append, applyPaths_append, mapDecode_shift]
    have hg : getChild (JsValue.vobj (objApp pre (.cons k v t)))
        (.fld k) = some v := by
      simp only [getChild]
      rw [getFld_app_not_mem pre (.cons k v t) k hkpre]
      simp [getFld]
    rw [applyPaths_under (mapDecode d (collectV v [])) _
      (.fld k) v (replV d v) hg (replaceV d v hwv)]
    have hset : setChild (JsValue.vobj (objApp pre (.cons k v t)))
        (.fld k) (replV d v) =
        some (.vobj (objApp pre (.cons k (replV d v) t))) := by
      simp only [setChild]
      rw [setFld_app_not_mem pre (.cons k v t) k (replV d v) hkpre]
      simp [setFld]
    rw [hset]
    simp only [Option.some_bind]
    have hobj : objApp pre (JsObj.cons k (replV d v) t) =
        objApp (objApp pre (.cons k (replV d v) .nil)) t := by
      rw [objApp_assoc]
      rfl
    have hnd2 : (objKeys (objApp pre (.cons k (replV d v) .nil)) ++
        objKeys t).Nodup := by
      rw [objKeys_app]
      have : (objKeys pre ++ objKeys (JsObj.cons k (replV d v) JsObj.nil))
          ++ objKeys t = objKeys pre ++ objKeys (JsObj.cons k v t) := by
        simp [objKeys]
      rw [this]
      exact hnd
    rw [hobj, replaceO d t (objApp pre (.cons k (replV d v) .nil)) hwt hnd2,
      objApp_assoc]
    rfl
end

theorem firstErr_none {rs : List (Except JsErr JsValue)}
    (h : ∀ r ∈ rs, ∃ v, r = .ok v) :
    ∀ sched, firstErr rs sched = none
  | [] => rfl
  | i :: t => by
    have hd : ∃ v, rs.getD i (.ok .vnull) = .ok v := by
      rw [List.getD_eq_getElem?_getD]
      cases hg : rs[i]? with
      | none => exact ⟨.vnull, rfl⟩
      | some r =>
        obtain ⟨hlt, hget⟩ := List.getElem?_eq_some_iff.mp hg
        obtain ⟨v, hv⟩ := h r (hget ▸ List.getElem_mem hlt)
        exact ⟨v, by simp [hv]⟩
    obtain ⟨v, hv⟩ := hd
    simp only [firstErr, hv]
    exact firstErr_none h t

theorem seqOk_map_ok {α : Type} (f : α → JsValue) :
    ∀ l : List α, seqOk (l.map (fun x => Except.ok (f x))) =
      some (l.map f)
  | [] => rfl
  | x :: t => by simp [seqOk, seqOk_map_ok f t]

theorem promiseAll_map_ok {α : Type} (f : α → JsValue) (l : List α)
    (sched : List Nat) :
    promiseAll (l.map (fun x => Except.ok (f x))) sched =
      .ok (l.map f) := by
  unfold promiseAll
  rw [firstErr_none (by
      intro r hr
      simp only [List.mem_map] at hr
      obtain ⟨a, _, ha⟩ := hr
      exact ⟨f a, ha.symm⟩) sched,
    seqOk_map_ok]

mutual
theorem replV_id (d : Str → JsValue) : ∀ v : JsValue,
    collectV v [] = [] → replV d v = v
  | .vnull, _ => rfl
  | .vundef, _ => rfl
  | .vbool b, _ => rfl
  | .vnum n, _ => rfl
  | .vbuf l, _ => rfl
  | .vtyped a, _ => rfl
  | .vstr s, h => by
    by_cases ht : isDataUrlStr s = true
    · simp [collectV, ht] at h
    · simp [replV, ht]
  | .varr xs, h => by
    simp only [collectV] at h
    simp [replV, replA_id d xs 0 h]
  | .vobj kvs, h => by
    simp only [collectV] at h
    simp [replV, replO_id d kvs h]
theorem replA_id (d : Str → JsValue) : ∀ (xs : JsArr) (i : Nat),
    collectA xs [] i = [] → replA d xs = xs
  | .nil, _, _ => rfl
  | .cons x t, i, h => by
    simp only [collectA, List.append_eq_nil] at h
    have hx : collectV x [] = [] := by
      have h1 := h.1
      rw [collectV_shift x ([] ++ [PathKey.idx i])] at h1
      exact List.map_eq_nil_iff.mp h1
    simp [replA, replV_id d x hx, replA_id d t (i + 1) h.2]
theorem replO_id (d : Str → JsValue) : ∀ kvs : JsObj,
    collectO kvs [] = [] → replO d kvs = kvs
  | .nil, _ => rfl
  | .cons k v t, h => by
    simp only [collectO, List.append_eq_nil] at h
    have hv : collectV v [] = [] := by
      have h1 := h.1
      rw [collectV_shift v ([] ++ [PathKey.fld k])] at h1
      exact List.map_eq_nil_iff.mp h1
    simp [replO, replV_id d v hv, replO_id d t h.2]
end

theorem collectV_root_ne_nil_paths (v : JsValue)
    (hroot : isTokenStr v = false) : ∀ pr ∈ collectV v [], pr.1 ≠ [] := by
  cases v with
  | vstr s =>
    simp only [isTokenStr] at hroot
    simp [collectV, hroot]
  | varr xs => exact collectA_ne_nil_paths xs 0
  | vobj kvs => exact collectO_ne_nil_paths kvs
  | vnull => simp [collectV]
  | vundef => simp [collectV]
  | vbool b => simp [collectV]
  | vnum n => simp [collectV]
  | vbuf l => simp [collectV]
  | vtyped a => simp [collectV]

/-- The engine correspondence: on a well-formed tree whose root is not
itself a token and all of whose tokens decode successfully, the engine
returns exactly the deep replacement of every token by its decoded
value, regardless of the settlement order. -/
theorem dereferenceDataRefs_ok (φ : Fetcher) (fo : Option FetchOpts)
    (json : JsValue) (sched : List Nat) (hwf : wfV json = true)
    (hroot : isTokenStr json = false)
    (hok : ∀ pr ∈ collectV json [],
      ∃ v, dereferenceDataUrl φ fo pr.2 = .ok v) :
    dereferenceDataRefs φ fo json sched =
      .ok (replV (decodeD φ fo) json) := by
  simp only [dereferenceDataRefs]
  by_cases hemp : collectV json [] = []
  · rw [if_pos hemp, replV_id (decodeD φ fo) json hemp]
  · rw [if_neg hemp]
    have hmap : (collectV json []).map
        (fun pr => dereferenceDataUrl φ fo pr.2) =
        (collectV json []).map
          (fun pr => Except.ok (decodeD φ fo pr.2)) := by
      apply List.map_congr_left
      intro pr hm
      obtain ⟨v, hv⟩ := hok pr hm
      rw [hv]
      unfold decodeD
      rw [hv]
    rw [hmap, promiseAll_map_ok]
    simp only [afterAll]
    have hzip : ((collectV json []).map Prod.fst).zip
        ((collectV json []).map (fun pr => decodeD φ fo pr.2)) =
        mapDecode (decodeD φ fo) (collectV json []) := by
      rw [List.zip_map']
      rfl
    rw [hzip,
      applyPaths_eq_applyTop _ _
        (mapDecode_ne_nil_paths (collectV_root_ne_nil_paths json hroot)),
      replaceV (decodeD φ fo) json hwf]
    rfl

theorem getIdx_replA (d : Str → JsValue) : ∀ (xs : JsArr) (i : Nat),
    getIdx (replA d xs) i = (getIdx xs i).map (replV d)
  | .nil, _ => rfl
  | .cons x t, 0 => rfl
  | .cons x t, i + 1 => by simp [replA, getIdx, getIdx_replA d t i]

theorem getFld_replO (d : Str → JsValue) : ∀ (kvs : JsObj) (k : Str),
    getFld (replO d kvs) k = (getFld kvs k).map (replV d)
  | .nil, _ => rfl
  | .cons k0 v t, k => by
    by_cases hk : k0 = k
    · simp [replO, getFld, hk]
    · simp [replO, getFld, if_neg hk, getFld_replO d t k]

theorem getChild_replV {d : Str → JsValue} {v : JsValue} {k : PathKey}
    {c : JsValue} (h : getChild v k = some c) :
    getChild (replV d v) k = some (replV d c) := by
  cases v with
  | varr xs =>
    cases k with
    | idx i =>
      simp only [getChild] at h
      simp [replV, getChild, getIdx_replA, h]
    | fld key => exact absurd h (by simp [getChild])
  | vobj kvs =>
    cases k with
    | idx i => exact absurd h (by simp [getChild])
    | fld key =>
      simp only [getChild] at h
      simp [replV, getChild, getFld_replO, h]
  | vnull => exact absurd h (by cases k <;> simp [getChild])
  | vundef => exact absurd h (by cases k <;> simp [getChild])
  | vbool b => exact absurd h (by cases k <;> simp [getChild])
  | vnum n => exact absurd h (by cases k <;> simp [getChild])
  | vstr s => exact absurd h (by cases k <;> simp [getChild])
  | vbuf l => exact absurd h (by cases k <;> simp [getChild])
  | vtyped a => exact absurd h (by cases k <;> simp [getChild])

theorem getPath_replV (d : Str → JsValue) : ∀ (p : List PathKey)
    (v w : JsValue), getPath v p = some w →
    getPath (replV d v) p = some (replV d w)
  | [], v, w, h => by
    simp only [getPath] at h ⊢
    injection h with h
    rw [h]
  | k :: p2, v, w, h => by
    simp only [getPath] at h ⊢
    cases hg : getChild v k with
    | none => rw [hg] at h; simp at h
    | some c =>
      rw [hg] at h
      simp only [Option.some_bind] at h
      rw [getChild_replV hg]
      simp only [Option.some_bind]
      exact getPath_replV d p2 c w h

theorem takeWhile_prefix_stop {p : Char → Bool} :
    ∀ (A : Str) (x : Char) (B : Str), (∀ c ∈ A, p c = true) →
      p x = false → (A ++ x :: B).takeWhile p = A
  | [], x, B, _, hx => by simp [List.takeWhile_cons, hx]
  | c :: t, x, B, hA, hx => by
    have hc : p c = true := hA c (by simp)
    simp only [List.cons_append, List.takeWhile_cons, hc, if_true]
    rw [takeWhile_prefix_stop t x B (fun d hd => hA d (by simp [hd])) hx]

theorem dropWhile_prefix_stop {p : Char → Bool} :
    ∀ (A : Str) (x : Char) (B : Str), (∀ c ∈ A, p c = true) →
      p x = false → (A ++ x :: B).dropWhile p = x :: B
  | [], x, B, _, hx => by simp [List.dropWhile_cons, hx]
  | c :: t, x, B, hA, hx => by
    have hc : p c = true := hA c (by simp)
    simp only [List.cons_append, List.dropWhile_cons, hc, if_true]
    exact dropWhile_prefix_stop t x B (fun d hd => hA d (by simp [hd])) hx

theorem takeWhile_app_stop {p : Char → Bool} :
    ∀ (A B : Str), (A.takeWhile p).length < A.length →
      (A ++ B).takeWhile p = A.takeWhile p
  | [], B, h => by simp at h
  | c :: t, B, h => by
    by_cases hc : p c = true
    · simp only [List.takeWhile_cons, hc, if_true, List.length_cons] at h
      simp only [List.cons_append, List.takeWhile_cons, hc, if_true]
      rw [takeWhile_app_stop t B (by omega)]
    · simp only [Bool.not_eq_true] at hc
      simp [List.takeWhile_cons, hc]

theorem dropWhile_app_stop {p : Char → Bool} :
    ∀ (A B : Str), (A.takeWhile p).length < A.length →
      (A ++ B).dropWhile p = A.dropWhile p ++ B
  | [], B, h => by simp at h
  | c :: t, B, h => by
    by_cases hc : p c = true
    · simp only [List.takeWhile_cons, hc, if_true, List.length_cons] at h
      simp only [List.cons_append, List.dropWhile_cons, hc, if_true]
      exact dropWhile_app_stop t B (by omega)
    · simp only [Bool.not_eq_true] at hc
      simp [List.dropWhile_cons, hc]

theorem splitOnChar_sepfree {sep : Char} :
    ∀ l : Str, (∀ c ∈ l, ¬ c = sep) → splitOnChar sep l = [l]
  | [], _ => rfl
  | c :: t, h => by
    simp only [splitOnChar, splitOnChar_sepfree t
      (fun d hd => h d (by simp [hd]))]
    rw [if_neg (h c (by simp))]
    simp

theorem splitOnChar_headSep {sep : Char} :
    ∀ (A : Str) (B : Str), (∀ c ∈ A, ¬ c = sep) →
      splitOnChar sep (A ++ sep :: B) = A :: splitOnChar sep B
  | [], B, _ => by simp [splitOnChar]
  | c :: t, B, h => by
    have hrec := splitOnChar_headSep t B (fun d hd => h d (by simp [hd]))
    rw [List.cons_append]
    rw [show splitOnChar sep (c :: (t ++ sep :: B)) =
      if c = sep then [] :: splitOnChar sep (t ++ sep :: B)
      else (c :: (splitOnChar sep (t ++ sep :: B)).headD []) ::
        (splitOnChar sep (t ++ sep :: B)).tail from rfl]
    rw [hrec, if_neg (h c (by simp))]
    simp

theorem isDataUrlStr_app {A : Str} (X : Str)
    (h : isDataUrlStr A = true) : isDataUrlStr (A ++ X) = true := by
  simp only [isDataUrlStr, List.isPrefixOf_iff_prefix] at h ⊢
  exact h.trans (List.prefix_append A X)

theorem isDataUrlStr_length {A : Str} (h : isDataUrlStr A = true) :
    5 ≤ A.length := by
  simp only [isDataUrlStr, List.isPrefixOf_iff_prefix] at h
  have := h.length_le
  simpa [str] using this

theorem getMimeType_app {A : Str} (X : Str)
    (h : isDataUrlStr A = true)
    (hstop : ((A.drop 5).takeWhile (fun c => ¬ c = ';')).length <
      (A.drop 5).length) : getMimeType (A ++ X) = getMimeType A := by
  simp only [getMimeType, isDataUrlStr_app X h, h, if_true]
  rw [List.drop_append_of_le_length (isDataUrlStr_length h),
    takeWhile_app_stop _ _ hstop]

theorem hexDigitUpper_ne_comma (n : Nat) : ¬ hexDigitUpper n = ',' := by
  unfold hexDigitUpper
  by_cases h : n < 16
  · interval_cases n <;> decide
  · rw [List.getD_eq_default]
    · decide
    · have hlen : (str "0123456789ABCDEF").length = 16 := by decide
      omega

theorem encodeURIComponentChar_no_comma (c : Char) :
    ∀ d ∈ encodeURIComponentChar c, ¬ d = ',' := by
  intro d hd
  simp only [encodeURIComponentChar] at hd
  by_cases hu : isUnreserved c = true
  · rw [if_pos hu] at hd
    simp only [List.mem_singleton] at hd
    subst hd
    intro he
    rw [he] at hu
    exact absurd hu (by decide)
  · rw [if_neg hu] at hd
    simp only [List.mem_flatMap] at hd
    obtain ⟨b, _, hb⟩ := hd
    simp only [pctEncodeByte, List.mem_cons, List.mem_singleton,
      List.not_mem_nil, or_false] at hb
    rcases hb with h1 | h1 | h1
    · subst h1; decide
    · subst h1
      exact hexDigitUpper_ne_comma _
    · subst h1
      exact hexDigitUpper_ne_comma _

theorem encodeURIComponent_no_comma (u : Str) :
    ∀ d ∈ encodeURIComponent u, ¬ d = ',' := by
  intro d hd
  simp only [encodeURIComponent, List.mem_flatMap] at hd
  obtain ⟨c, _, hc⟩ := hd
  exact encodeURIComponentChar_no_comma c d hc

theorem encodeURIComponent_ne_nil {u : Str} (h : u ≠ []) :
    encodeURIComponent u ≠ [] := by
  cases u with
  | nil => exact absurd rfl h
  | cons c t =>
    simp only [encodeURIComponent, List.flatMap_cons, ne_eq,
      List.append_eq_nil]
    intro hcon
    have h1 := hcon.1
    simp only [encodeURIComponentChar] at h1
    by_cases hu : isUnreserved c = true
    · rw [if_pos hu] at h1
      simp at h1
    · rw [if_neg hu] at h1
      have := utf8EncodeChar_ne_nil c
      cases hb : utf8EncodeChar c with
      | nil => exact absurd hb this
      | cons b bs =>
        rw [hb] at h1
        simp [pctEncodeByte] at h1

theorem emap_ok {α β : Type} (f : α → β) (a : α) :
    (Except.ok (ε := JsErr) a).map f = .ok (f a) := rfl

theorem ebind_ok {α β : Type} (a : α) (f : α → Except JsErr β) :
    (Except.ok a).bind f = f a := rfl

theorem isUrlDataUrl_app {A : Str} (X : Str)
    (h1 : isDataUrlStr A = true)
    (h2 : ((A.drop 5).takeWhile (fun c => ¬ c = ';')).length <
      (A.drop 5).length) (hne : getMimeType A ≠ MIME_URI) :
    isUrlDataUrl (A ++ X) = false := by
  simp only [isUrlDataUrl]
  rw [getMimeType_app X h1 h2]
  exact decide_eq_false hne

theorem dataUrlToBuffer_pct (φ : Fetcher) (fo : Option FetchOpts)
    (A : Str) (u : Str)
    (hurl : isUrlDataUrl (A ++ ',' :: encodeURIComponent u) = false)
    (hA : ∀ c ∈ A, ¬ c = ',')
    (hb64 : containsSub (str ";base64") A = false) :
    dataUrlToBuffer φ (A ++ ',' :: encodeURIComponent u) fo =
      .ok (utf8Encode u) := by
  have hA2 : ∀ c ∈ A, (fun c => decide (¬ c = ',')) c = true :=
    fun c hc => decide_eq_true (hA c hc)
  have hx : (fun c => decide (¬ c = ',')) ',' = false := by decide
  simp only [dataUrlToBuffer]
  rw [if_neg (by rw [hurl]; simp)]
  rw [splitOnChar_headSep A _ hA,
    splitOnChar_sepfree _ (encodeURIComponent_no_comma u)]
  rw [if_neg (by simp)]
  rw [takeWhile_prefix_stop A ',' _ hA2 hx,
    dropWhile_prefix_stop A ',' _ hA2 hx]
  simp only [List.tail_cons]
  rw [if_neg (by rw [hb64]; simp)]
  by_cases hu : u = []
  · subst hu
    rw [if_pos (show encodeURIComponent [] = [] from rfl)]
    rfl
  · rw [if_neg (encodeURIComponent_ne_nil hu),
      decodeURIComponent_encodeURIComponent]
    rfl

theorem dataUrlToBuffer_b64 (φ : Fetcher) (fo : Option FetchOpts)
    (A : Str) (bs : List Nat) (hb : ∀ b ∈ bs, b < 256)
    (hurl : isUrlDataUrl (A ++ ',' :: btoa bs) = false)
    (hA : ∀ c ∈ A, ¬ c = ',')
    (hb64 : containsSub (str ";base64") A = true) :
    dataUrlToBuffer φ (A ++ ',' :: btoa bs) fo = .ok bs := by
  have hA2 : ∀ c ∈ A, (fun c => decide (¬ c = ',')) c = true :=
    fun c hc => decide_eq_true (hA c hc)
  have hx : (fun c => decide (¬ c = ',')) ',' = false := by decide
  have hbc : ∀ c ∈ btoa bs, ¬ c = ',' :=
    fun c hc he => btoa_no_comma bs (he ▸ hc)
  simp only [dataUrlToBuffer]
  rw [if_neg (by rw [hurl]; simp)]
  rw [splitOnChar_headSep A _ hA, splitOnChar_sepfree _ hbc]
  rw [if_neg (by simp)]
  rw [takeWhile_prefix_stop A ',' _ hA2 hx,
    dropWhile_prefix_stop A ',' _ hA2 hx]
  simp only [List.tail_cons]
  rw [if_pos (by rw [hb64])]
  by_cases hbs : bs = []
  · subst hbs
    rw [if_pos (show btoa [] = [] from rfl)]
  · rw [if_neg (btoa_ne_nil hbs), atob_btoa bs hb]
    rfl

theorem dataUrlToText_textToDataUrl (φ : Fetcher) (fo : Option FetchOpts)
    (t : Str) : dataUrlToText φ (textToDataUrl t) fo = .ok t := by
  have htok : textToDataUrl t =
      str "data:text/plain;charset=utf-8" ++ ',' :: encodeURIComponent t :=
    rfl
  simp only [dataUrlToText]
  rw [htok, dataUrlToBuffer_pct φ fo _ t
    (isUrlDataUrl_app _ (by decide) (by decide) (by decide))
    (by decide) (by decide)]
  simp only [emap_ok]
  rw [textDecode_utf8Encode]

theorem dataUrlToJson_jsonToDataUrl (φ : Fetcher) (fo : Option FetchOpts)
    (j : Json) : dataUrlToJson φ (jsonToDataUrl j) fo = .ok j := by
  have htok : jsonToDataUrl j =
      str "data:application/json;charset=utf-8" ++
        ',' :: encodeURIComponent (stringify j) := rfl
  simp only [dataUrlToJson, dataUrlToText]
  rw [htok, dataUrlToBuffer_pct φ fo _ (stringify j)
    (isUrlDataUrl_app _ (by decide) (by decide) (by decide))
    (by decide) (by decide)]
  simp only [emap_ok, ebind_ok]
  rw [textDecode_utf8Encode, jsonParse_stringify]
  rfl

theorem dataUrlToBuffer_bufferToDataUrl (φ : Fetcher)
    (fo : Option FetchOpts) (bs : List Nat) (hb : ∀ b ∈ bs, b < 256) :
    dataUrlToBuffer φ (bufferToDataUrl bs) fo = .ok bs := by
  have htok : bufferToDataUrl bs =
      str "data:application/octet-stream;base64" ++ ',' :: btoa bs := rfl
  rw [htok, dataUrlToBuffer_b64 φ fo _ bs hb
    (isUrlDataUrl_app _ (by decide) (by decide) (by decide))
    (by decide) (by decide)]

theorem getParamString_app (A E : Str)
    (h1 : isDataUrlStr A = true)
    (h2 : ((A.drop 5).takeWhile (fun c => ¬ c = ';')).length <
      (A.drop 5).length)
    (h3 : ¬ (A.drop 5).takeWhile (fun c => ¬ c = ';') = [])
    (h4 : ∀ c ∈ ((A.drop 5).dropWhile (fun c => ¬ c = ';')).tail,
      ¬ c = ',')
    (h5 : ¬ ((A.drop 5).dropWhile (fun c => ¬ c = ';')).tail = []) :
    getParamString (A ++ ',' :: E) =
      some (((A.drop 5).dropWhile (fun c => ¬ c = ';')).tail) := by
  have hR : (A.drop 5).dropWhile (fun c => decide (¬ c = ';')) ≠ [] := by
    intro hcon
    have := List.takeWhile_append_dropWhile
      (p := fun c => decide (¬ c = ';')) (l := A.drop 5)
    rw [hcon, List.append_nil] at this
    rw [this] at h2
    omega
  obtain ⟨r0, R2, hR0⟩ := List.exists_cons_of_ne_nil hR
  simp only [getParamString]
  rw [if_pos (isDataUrlStr_app _ h1)]
  rw [List.drop_append_of_le_length (isDataUrlStr_length h1)]
  rw [takeWhile_app_stop _ _ h2, dropWhile_app_stop _ _ h2]
  rw [if_neg h3]
  rw [if_neg (by rw [hR0]; simp)]
  rw [hR0]
  simp only [List.cons_append, List.tail_cons]
  rw [hR0] at h4 h5
  simp only [List.tail_cons] at h4 h5
  have h42 : ∀ c ∈ R2, (fun c => decide (¬ c = ',')) c = true :=
    fun c hc => decide_eq_true (h4 c hc)
  have hx : (fun c => decide (¬ c = ',')) ',' = false := by decide
  rw [takeWhile_prefix_stop R2 ',' E h42 hx,
    dropWhile_prefix_stop R2 ',' E h42 hx]
  rw [if_neg h5, if_neg (by simp)]

theorem parseTAType_name : ∀ ty : TAType,
    parseTAType (taTypeName ty) = some ty := by
  intro ty
  cases ty <;> decide

theorem typed_round_aux (φ : Fetcher) (fo : Option FetchOpts)
    (ty : TAType) (bs : List Nat) (A : Str)
    (hb : ∀ b ∈ bs, b < 256) (hlen : bs.length % elemSize ty = 0)
    (htok : typedArrayToDataUrl ⟨ty, bs⟩ = A ++ ',' :: btoa bs)
    (hA : ∀ c ∈ A, ¬ c = ',')
    (hb64 : containsSub (str ";base64") A = true)
    (h1 : isDataUrlStr A = true)
    (h2 : ((A.drop 5).takeWhile (fun c => ¬ c = ';')).length <
      (A.drop 5).length)
    (h3 : ¬ (A.drop 5).takeWhile (fun c => ¬ c = ';') = [])
    (h4 : ∀ c ∈ ((A.drop 5).dropWhile (fun c => ¬ c = ';')).tail,
      ¬ c = ',')
    (h5 : ¬ ((A.drop 5).dropWhile (fun c => ¬ c = ';')).tail = [])
    (hne : getMimeType A ≠ MIME_URI)
    (hget : getParam (paramsOf
        (some (((A.drop 5).dropWhile (fun c => ¬ c = ';')).tail)))
      (str "type") = some (taTypeName ty)) :
    dataUrlToTypedArray φ (typedArrayToDataUrl ⟨ty, bs⟩) fo =
      .ok ⟨ty, bs⟩ := by
  rw [htok]
  simp only [dataUrlToTypedArray, getParameters]
  rw [getParamString_app A (btoa bs) h1 h2 h3 h4 h5, hget]
  simp only [typedOf]
  rw [dataUrlToBuffer_b64 φ fo A bs hb
    (isUrlDataUrl_app _ h1 h2 hne) hA hb64]
  simp only [ebind_ok]
  rw [parseTAType_name ty]
  simp only [taOf]
  rw [if_pos hlen]

theorem dataUrlToTypedArray_typedArrayToDataUrl (φ : Fetcher)
    (fo : Option FetchOpts) (a : TypedArr)
    (hb : ∀ b ∈ a.bytes, b < 256)
    (hlen : a.bytes.length % elemSize a.ty = 0) :
    dataUrlToTypedArray φ (typedArrayToDataUrl a) fo = .ok a := by
  obtain ⟨ty, bs⟩ := a
  simp only at hb hlen
  cases ty with
  | bigInt64 =>
    exact typed_round_aux φ fo _ bs
      (str "data:application/octet-stream;type=BigInt64Array;base64")
      hb hlen rfl (by decide) (by decide) (by decide) (by decide)
      (by decide) (by decide) (by decide) (by decide) (by decide)
  | bigUint64 =>
    exact typed_round_aux φ fo _ bs
      (str "data:application/octet-stream;type=BigUint64Array;base64")
      hb hlen rfl (by decide) (by decide) (by decide) (by decide)
      (by decide) (by decide) (by decide) (by decide) (by decide)
  | float32 =>
    exact typed_round_aux φ fo _ bs
      (str "data:application/octet-stream;type=Float32Array;base64")
      hb hlen rfl (by decide) (by decide) (by decide) (by decide)
      (by decide) (by decide) (by decide) (by decide) (by decide)
  | float64 =>
    exact typed_round_aux φ fo _ bs
      (str "data:application/octet-stream;type=Float64Array;base64")
      hb hlen rfl (by decide) (by decide) (by decide) (by decide)
      (by decide) (by decide) (by decide) (by decide) (by decide)
  | int16 =>
    exact typed_round_aux φ fo _ bs
      (str "data:application/octet-stream;type=Int16Array;base64")
      hb hlen rfl (by decide) (by decide) (by decide) (by decide)
      (by decide) (by decide) (by decide) (by decide) (by decide)
  | int32 =>
    exact typed_round_aux φ fo _ bs
      (str "data:application/octet-stream;type=Int32Array;base64")
      hb hlen rfl (by decide) (by decide) (by decide) (by decide)
      (by decide) (by decide) (by decide) (by decide) (by decide)
  | int8 =>
    exact typed_round_aux φ fo _ bs
      (str "data:application/octet-stream;type=Int8Array;base64")
      hb hlen rfl (by decide) (by decide) (by decide) (by decide)
      (by decide) (by decide) (by decide) (by decide) (by decide)
  | uint16 =>
    exact typed_round_aux φ fo _ bs
      (str "data:application/octet-stream;type=Uint16Array;base64")
      hb hlen rfl (by decide) (by decide) (by decide) (by decide)
      (by decide) (by decide) (by decide) (by decide) (by decide)
  | uint32 =>
    exact typed_round_aux φ fo _ bs
      (str "data:application/octet-stream;type=Uint32Array;base64")
      hb hlen rfl (by decide) (by decide) (by decide) (by decide)
      (by decide) (by decide) (by decide) (by decide) (by decide)
  | uint8 =>
    exact typed_round_aux φ fo _ bs
      (str "data:application/octet-stream;type=Uint8Array;base64")
      hb hlen rfl (by decide) (by decide) (by decide) (by decide)
      (by decide) (by decide) (by decide) (by decide) (by decide)
  | uint8Clamped =>
    exact typed_round_aux φ fo _ bs
      (str "data:application/octet-stream;type=Uint8ClampedArray;base64")
      hb hlen rfl (by decide) (by decide) (by decide) (by decide)
      (by decide) (by decide) (by decide) (by decide) (by decide)

theorem dataUrlToUrl_urlToDataUrl (φ : Fetcher) (u : Str) :
    urlToDataUrl φ u none =
      .ok (str "data:text/x-uri;charset=utf-8," ++ encodeURIComponent u) ∧
    dataUrlToUrl (str "data:text/x-uri;charset=utf-8," ++
      encodeURIComponent u) = .ok (some u) := by
  constructor
  · rfl
  · have htok : str "data:text/x-uri;charset=utf-8," ++
        encodeURIComponent u =
        str "data:text/x-uri;charset=utf-8" ++
          ',' :: encodeURIComponent u := rfl
    rw [htok]
    have hmime : getMimeType (str "data:text/x-uri;charset=utf-8" ++
        ',' :: encodeURIComponent u) = MIME_URI := by
      rw [getMimeType_app _ (by decide) (by decide)]
      decide
    simp only [dataUrlToUrl]
    rw [if_pos (by simp only [isUrlDataUrl, hmime]; decide)]
    rw [splitOnChar_headSep _ _ (by decide),
      splitOnChar_sepfree _ (encodeURIComponent_no_comma u)]
    simp only [List.getD_cons_succ, List.getD_cons_zero]
    rw [decodeURIComponent_encodeURIComponent]
    rfl

/-! ### The verified claims -/

/-- A fetch oracle that always rejects (used by concrete instances whose
code paths perform no network access). -/
def phiNone : Fetcher := fun _ _ => none

/-- C1 (corrected): when the discovery pass finds tokens and some task
fails, the engine rejects with the error of the first task to fail in
settlement order — it does not wait for all tasks to settle and the
surfaced error follows completion order, not path order. -/
theorem C1_first_settled_failure (φ : Fetcher) (fo : Option FetchOpts)
    (json : JsValue) (sched : List Nat) (e : JsErr)
    (hne : ¬ collectV json [] = [])
    (hfe : firstErr ((collectV json []).map
      (fun pr => dereferenceDataUrl φ fo pr.2)) sched = some e) :
    dereferenceDataRefs φ fo json sched = .error e := by
  simp only [dereferenceDataRefs]
  rw [if_neg hne]
  simp only [promiseAll, hfe]
  rfl

/-- C1 counterexample: two failing tokens; the two settlement orders
surface different errors, so the failure is not deterministic in path
order after all tasks settle. -/
theorem C1_order_dependent_counterexample :
    dereferenceDataRefs phiNone none
      (.varr (.cons (.vstr (str "data:application/json;charset=utf-8,%"))
        (.cons (.vstr (str "data:x;base64,@@@")) .nil))) [0, 1] =
      .error .uriError ∧
    dereferenceDataRefs phiNone none
      (.varr (.cons (.vstr (str "data:application/json;charset=utf-8,%"))
        (.cons (.vstr (str "data:x;base64,@@@")) .nil))) [1, 0] =
      .error .invalidB64 ∧
    JsErr.uriError ≠ JsErr.invalidB64 := by
  refine ⟨by decide, by decide, by decide⟩

theorem C1_first_settled_failure_witness :
    dereferenceDataRefs phiNone none
      (.varr (.cons (.vstr (str "data:application/json;charset=utf-8,%"))
        (.cons (.vstr (str "data:x;base64,@@@")) .nil))) [1, 0] =
      .error .invalidB64 :=
  C1_first_settled_failure phiNone none _ [1, 0] .invalidB64
    (by decide) (by decide)

/-- C2 (confirmed, with the V1 predicate modelled from the spec): every
value of the `type`-discriminated historical shape is detected by the
legacy `isDataRef`, and every value of the `ref`-discriminated
historical shape is detected by the V1 predicate and hence by the V2
`isDataRef`. -/
theorem C2_legacy_shapes_detected :
    (∀ (kvs : JsObj) (t : Str) (x : JsValue),
      getFld kvs (str "type") = some (.vstr t) → t ∈ DataRefTypeNames →
      getFld kvs (str "value") = some x → ¬ x = .vundef →
      isDataRefLegacy (.vobj kvs) = true) ∧
    (∀ (kvs : JsObj) (t : Str) (x : JsValue),
      getFld kvs (str "ref") = some (.vstr t) → t ∈ DataRefTypeNames →
      getFld kvs (str "value") = some x → ¬ x = .vundef →
      isDataRefV1 (.vobj kvs) = true ∧ isDataRefV2 (.vobj kvs) = true) := by
  constructor
  · intro kvs t x h1 h2 h3 h4
    simp only [isDataRefLegacy, h1, h3]
    simp [h2, h4]
  · intro kvs t x h1 h2 h3 h4
    have hv1 : isDataRefV1 (.vobj kvs) = true := by
      simp only [isDataRefV1, h1, h3]
      simp [h2, h4]
    exact ⟨hv1, by simp [isDataRefV2, hv1]⟩

theorem C2_legacy_shapes_detected_witness :
    isDataRefLegacy (.vobj (.cons (str "type") (.vstr (str "base64"))
      (.cons (str "value") (.vstr (str "payload")) .nil))) = true ∧
    isDataRefV1 (.vobj (.cons (str "ref") (.vstr (str "utf8"))
      (.cons (str "value") (.vstr (str "hello")) .nil))) = true ∧
    isDataRefV2 (.vobj (.cons (str "ref") (.vstr (str "utf8"))
      (.cons (str "value") (.vstr (str "hello")) .nil))) = true :=
  ⟨C2_legacy_shapes_detected.1
      (.cons (str "type") (.vstr (str "base64"))
        (.cons (str "value") (.vstr (str "payload")) .nil))
      (str "base64") (.vstr (str "payload"))
      (by decide) (by decide) (by decide) (by decide),
   (C2_legacy_shapes_detected.2
      (.cons (str "ref") (.vstr (str "utf8"))
        (.cons (str "value") (.vstr (str "hello")) .nil))
      (str "utf8") (.vstr (str "hello"))
      (by decide) (by decide) (by decide) (by decide)).1,
   (C2_legacy_shapes_detected.2
      (.cons (str "ref") (.vstr (str "utf8"))
        (.cons (str "value") (.vstr (str "hello")) .nil))
      (str "utf8") (.vstr (str "hello"))
      (by decide) (by decide) (by decide) (by decide)).2⟩

/-- C3 (corrected): in fetch mode the returned token is always the
fixed octet-stream/base64 encoding of the fetched bytes; nothing from
the response's `Content-Type` reaches the token. -/
theorem C3_fetch_returns_fixed_octet_token (φ : Fetcher) (url : Str)
    (o : FetchOpts) (resp : FetchResp)
    (hφ : φ url (some o) = some resp) (hok : resp.ok = true) :
    urlToDataUrl φ url (some o) = .ok (bufferToDataUrl resp.body) ∧
    getMimeType (bufferToDataUrl resp.body) = MIME_OCTET := by
  constructor
  · simp only [urlToDataUrl, hφ, urlFetched]
    rw [if_pos hok]
  · rw [show bufferToDataUrl resp.body =
      str "data:application/octet-stream;base64" ++ ',' :: btoa resp.body
      from rfl,
      getMimeType_app _ (by decide) (by decide)]
    decide

/-- C3 counterexample: a response carrying `Content-Type: text/html`
still yields the plain octet-stream token with no content-type
parameter, contradicting the spec's "content-type parameter taken from
the response". -/
theorem C3_content_type_ignored_counterexample :
    urlToDataUrl (fun _ _ => some ⟨true, [72, 105], some (str "text/html")⟩)
      (str "http://example.com/x") (some ⟨0⟩) =
      .ok (bufferToDataUrl [72, 105]) ∧
    ¬ getMimeType (bufferToDataUrl [72, 105]) = str "text/html" ∧
    getParam (getParameters (bufferToDataUrl [72, 105]))
      (str "content-type") = none := by
  refine ⟨by decide, by decide, by decide⟩

theorem C3_fetch_returns_fixed_octet_token_witness :
    urlToDataUrl (fun _ _ => some ⟨true, [72, 105], some (str "text/html")⟩)
      (str "http://example.com/x") (some ⟨0⟩) =
      .ok (bufferToDataUrl [72, 105]) ∧
    getMimeType (bufferToDataUrl [72, 105]) = MIME_OCTET :=
  C3_fetch_returns_fixed_octet_token _ (str "http://example.com/x") ⟨0⟩
    ⟨true, [72, 105], some (str "text/html")⟩ rfl rfl

/-- C4 (corrected): on a well-formed tree whose root is not itself a
token, when every discovered token decodes successfully the engine
returns the tree with every token scalar (at any depth) replaced by its
decoded value and every other node unchanged; a root that is itself a
token is not replaced (see the counterexample). -/
theorem C4_token_replacement (φ : Fetcher) (fo : Option FetchOpts)
    (json : JsValue) (sched : List Nat) (hwf : wfV json = true)
    (hroot : isTokenStr json = false)
    (hok : ∀ pr ∈ collectV json [],
      ∃ v, dereferenceDataUrl φ fo pr.2 = .ok v) :
    dereferenceDataRefs φ fo json sched =
      .ok (replV (decodeD φ fo) json) :=
  dereferenceDataRefs_ok φ fo json sched hwf hroot hok

/-- C4 counterexample: a tree whose root is itself a token is not
replaced by its decoded value — the rebuild assignment throws — even
though the token itself decodes fine. -/
theorem C4_root_token_counterexample :
    dereferenceDataRefs phiNone none
      (.vstr (str "data:text/plain;charset=utf-8,hi")) [0] =
      .error .typeError ∧
    dereferenceDataUrl phiNone none
      (str "data:text/plain;charset=utf-8,hi") = .ok (.vstr (str "hi")) := by
  refine ⟨by decide, by decide⟩

theorem C4_token_replacement_witness :
    dereferenceDataRefs phiNone none
      (.vobj (.cons (str "a")
        (.vstr (str "data:text/plain;charset=utf-8,hi")) .nil)) [0] =
      .ok (replV (decodeD phiNone none)
        (.vobj (.cons (str "a")
          (.vstr (str "data:text/plain;charset=utf-8,hi")) .nil))) :=
  C4_token_replacement phiNone none _ [0] (by decide) (by decide)
    (by
      intro pr hm
      have hcol : collectV (JsValue.vobj (.cons (str "a")
          (.vstr (str "data:text/plain;charset=utf-8,hi")) .nil)) [] =
          [([PathKey.fld (str "a")],
            str "data:text/plain;charset=utf-8,hi")] := by decide
      rw [hcol] at hm
      simp only [List.mem_singleton] at hm
      subst hm
      exact ⟨.vstr (str "hi"), by decide⟩)

/-- C5 (confirmed): a value satisfying only the legacy reference shape
(and containing no token strings) is treated as an ordinary mapping:
after a successful run it is present unchanged at its position in the
rebuilt tree. -/
theorem C5_legacy_passthrough (φ : Fetcher) (fo : Option FetchOpts)
    (json : JsValue) (sched : List Nat) (p : List PathKey) (w : JsValue)
    (hwf : wfV json = true) (hroot : isTokenStr json = false)
    (hok : ∀ pr ∈ collectV json [],
      ∃ v, dereferenceDataUrl φ fo pr.2 = .ok v)
    (hw : getPath json p = some w)
    (hleg : isDataRefLegacy w = true)
    (hnotok : collectV w [] = []) :
    ∃ out, dereferenceDataRefs φ fo json sched = .ok out ∧
      getPath out p = some w := by
  refine ⟨replV (decodeD φ fo) json,
    dereferenceDataRefs_ok φ fo json sched hwf hroot hok, ?_⟩
  have h := getPath_replV (decodeD φ fo) p json w hw
  rw [replV_id _ w hnotok] at h
  exact h

theorem C5_legacy_passthrough_witness :
    ∃ out, dereferenceDataRefs phiNone none
      (.vobj (.cons (str "ref1")
        (.vstr (str "data:text/plain;charset=utf-8,hi"))
        (.cons (str "legacy")
          (.vobj (.cons (str "type") (.vstr (str "key"))
            (.cons (str "value") (.vstr (str "k1")) .nil))) .nil))) [0] =
      .ok out ∧
    getPath out [.fld (str "legacy")] =
      some (.vobj (.cons (str "type") (.vstr (str "key"))
        (.cons (str "value") (.vstr (str "k1")) .nil))) :=
  C5_legacy_passthrough phiNone none _ [0] [.fld (str "legacy")] _
    (by decide) (by decide)
    (by
      intro pr hm
      have hcol : collectV (JsValue.vobj (.cons (str "ref1")
          (.vstr (str "data:text/plain;charset=utf-8,hi"))
          (.cons (str "legacy")
            (.vobj (.cons (str "type") (.vstr (str "key"))
              (.cons (str "value") (.vstr (str "k1")) .nil))) .nil))) [] =
          [([PathKey.fld (str "ref1")],
            str "data:text/plain;charset=utf-8,hi")] := by decide
      rw [hcol] at hm
      simp only [List.mem_singleton] at hm
      subst hm
      exact ⟨.vstr (str "hi"), by decide⟩)
    (by decide) (by decide) (by decide)

/-- C6 (confirmed): decode ∘ encode is the identity for all four
payload kinds — text, JSON, raw bytes and numeric arrays viewing their
whole buffer — including the empty payloads of each kind. -/
theorem C6_roundtrip (φ : Fetcher) (fo : Option FetchOpts) (t : Str)
    (j : Json) (bs : List Nat) (a : TypedArr)
    (hwfj : wfJson j = true)
    (hb : ∀ b ∈ bs, b < 256) (ha : ∀ b ∈ a.bytes, b < 256)
    (hlen : a.bytes.length % elemSize a.ty = 0) :
    dataUrlToText φ (textToDataUrl t) fo = .ok t ∧
    dataUrlToJson φ (jsonToDataUrl j) fo = .ok j ∧
    dataUrlToBuffer φ (bufferToDataUrl bs) fo = .ok bs ∧
    dataUrlToTypedArray φ (typedArrayToDataUrl a) fo = .ok a :=
  ⟨dataUrlToText_textToDataUrl φ fo t,
   dataUrlToJson_jsonToDataUrl φ fo j,
   dataUrlToBuffer_bufferToDataUrl φ fo bs hb,
   dataUrlToTypedArray_typedArrayToDataUrl φ fo a ha hlen⟩

theorem C6_roundtrip_witness :
    (dataUrlToText phiNone (textToDataUrl []) none = .ok [] ∧
     dataUrlToJson phiNone (jsonToDataUrl (.obj .nil)) none =
       .ok (.obj .nil) ∧
     dataUrlToBuffer phiNone (bufferToDataUrl []) none = .ok [] ∧
     dataUrlToTypedArray phiNone
       (typedArrayToDataUrl ⟨.int8, [128, 0, 127]⟩) none =
       .ok ⟨.int8, [128, 0, 127]⟩) ∧
    (dataUrlToText phiNone (textToDataUrl (str "hi, there!")) none =
       .ok (str "hi, there!") ∧
     dataUrlToJson phiNone (jsonToDataUrl (.arr .nil)) none =
       .ok (.arr .nil) ∧
     dataUrlToBuffer phiNone (bufferToDataUrl [0, 255, 1]) none =
       .ok [0, 255, 1] ∧
     dataUrlToTypedArray phiNone
       (typedArrayToDataUrl ⟨.bigInt64, [0, 0, 0, 0, 0, 0, 0, 128]⟩) none =
       .ok ⟨.bigInt64, [0, 0, 0, 0, 0, 0, 0, 128]⟩) :=
  ⟨C6_roundtrip phiNone none [] (.obj .nil) [] ⟨.int8, [128, 0, 127]⟩
     (by decide) (by decide) (by decide) (by decide),
   C6_roundtrip phiNone none (str "hi, there!") (.arr .nil) [0, 255, 1]
     ⟨.bigInt64, [0, 0, 0, 0, 0, 0, 0, 128]⟩
     (by decide) (by decide) (by decide) (by decide)⟩

/-- C7 (confirmed): decoding a token whose header carries no `type`
parameter as a numeric array fails with the missing-type error; no
default variant is substituted. -/
theorem C7_missing_type_tag (φ : Fetcher) (fo : Option FetchOpts)
    (s : Str) (h : getParam (getParameters s) (str "type") = none) :
    dataUrlToTypedArray φ s fo = .error .missingTypeParam := by
  simp only [dataUrlToTypedArray, h]
  rfl

theorem C7_missing_type_tag_witness :
    getParam (getParameters (bufferToDataUrl [1, 2])) (str "type") =
      none ∧
    dataUrlToTypedArray phiNone (bufferToDataUrl [1, 2]) none =
      .error .missingTypeParam :=
  ⟨by decide, C7_missing_type_tag phiNone none _ (by decide)⟩

/-- C8 (confirmed): when the discovery pass finds zero tokens the
engine returns the original input itself. -/
theorem C8_zero_tokens_identity (φ : Fetcher) (fo : Option FetchOpts)
    (json : JsValue) (sched : List Nat)
    (h : collectV json [] = []) :
    dereferenceDataRefs φ fo json sched = .ok json := by
  simp only [dereferenceDataRefs]
  rw [if_pos h]

theorem C8_zero_tokens_identity_witness :
    dereferenceDataRefs phiNone none
      (.vobj (.cons (str "a") (.vstr (str "plain"))
        (.cons (str "b") (.varr (.cons (.vnum 3) .nil)) .nil))) [] =
      .ok (.vobj (.cons (str "a") (.vstr (str "plain"))
        (.cons (str "b") (.varr (.cons (.vnum 3) .nil)) .nil))) :=
  C8_zero_tokens_identity phiNone none _ [] (by decide)

/-- C9 (confirmed): without fetch options `urlToDataUrl` consults no
oracle and yields the uri-reference token, from which `dataUrlToUrl`
recovers exactly the original URL. -/
theorem C9_uri_roundtrip (φ : Fetcher) (u : Str) :
    urlToDataUrl φ u none =
      .ok (str "data:text/x-uri;charset=utf-8," ++
        encodeURIComponent u) ∧
    dataUrlToUrl (str "data:text/x-uri;charset=utf-8," ++
      encodeURIComponent u) = .ok (some u) :=
  dataUrlToUrl_urlToDataUrl φ u

/-- C10 (confirmed): the media-kind accessor is total — a string
without a parsable header gets the octet-stream default, and the result
is never empty — and the parameter accessor returns the empty record
whenever no parameter segment parses. -/
theorem C10_accessors_total (s : Str) :
    (¬ isDataUrlStr s = true → getMimeType s = MIME_OCTET) ∧
    ¬ getMimeType s = [] ∧
    (getParamString s = none → getParameters s = []) := by
  refine ⟨?_, ?_, ?_⟩
  · intro h
    simp only [getMimeType]
    rw [if_neg h]
  · intro hcon
    simp only [getMimeType] at hcon
    by_cases h : isDataUrlStr s = true
    · rw [if_pos h] at hcon
      by_cases hc : (s.drop 5).takeWhile (fun c => ¬ c = ';') = []
      · rw [if_pos hc] at hcon
        exact absurd hcon (by decide)
      · rw [if_neg hc] at hcon
        exact hc hcon
    · rw [if_neg h] at hcon
      exact absurd hcon (by decide)
  · intro h
    simp only [getParameters, h]
    rfl

theorem C10_accessors_total_witness :
    getMimeType (str "hello") = MIME_OCTET ∧
    ¬ getMimeType (str "hello") = [] ∧
    getParameters (str "hello") = [] :=
  ⟨(C10_accessors_total (str "hello")).1 (by decide),
   (C10_accessors_total (str "hello")).2.1,
   (C10_accessors_total (str "hello")).2.2 (by decide)⟩

end Dataref